import Mathlib

/-!
Verification of the `searcher` crate (an in-memory full-text search engine)
against its natural-language specification.

The development shallowly embeds the Rust source:

* words (`&str`) become `List Char`; Rust's byte-lexicographic order on UTF-8
  strings coincides with codepoint-lexicographic order, embedded as `ltb`;
* `RoaringBitmap` document sets become either `Finset ℕ` (inside word-table
  rows) or the finite/cofinite type `Bitmap` (inside `Searcher::query`, which
  uses `RoaringBitmap::full()`);
* the sorted word table `WordIndex` (src/word_index.rs) becomes a list of rows
  sorted strictly by word; `slice::binary_search` on such a list returns the
  index of the unique matching row, or the number of smaller rows when absent,
  so the scan operations are embedded with `dropWhile`/`takeWhile`;
* the orientation index `Index` (src/index.rs) becomes `IndexM` (per-document
  attribute word lists, per-culture tables, sorted interner); hash-set
  iteration orders, which the Rust code leaves unspecified, are fixed to
  sorted order (the per-word operations commute, so the final states agree);
* the facade `Searcher` (src/searcher.rs) becomes `SearcherM`; the reusable
  `IndexLog` scratch buffers are cleared before every use in the source and
  carry no state across calls, so they are not part of the model state;
* comparator scores (src/comparers/*) become `MDScore`/`PSScore` with the
  comparison functions transcribed from the `Ord` implementations.
-/

/-- Indexed words (`&str` contents) as character sequences. -/
abbrev Word := List Char

/-- UTF-8 encoded size of one character, as in Rust's `char::len_utf8`. -/
def charSize (c : Char) : Nat :=
  if c.toNat < 128 then 1 else if c.toNat < 2048 then 2
  else if c.toNat < 65536 then 3 else 4

/-- Byte length of a word: Rust's `str::len`. -/
def byteLen (w : Word) : Nat := (w.map charSize).sum

/-- Strict lexicographic order on words. Rust compares `&str` byte-wise;
on UTF-8 encodings the byte order equals the codepoint order embedded here. -/
def ltb : Word → Word → Bool
  | [], [] => false
  | [], _ :: _ => true
  | _ :: _, [] => false
  | a :: as, b :: bs => if a < b then true else if b < a then false else ltb as bs

/-- Boolean word-prefix test, Rust's `str::starts_with`. -/
def pfx : Word → Word → Bool
  | [], _ => true
  | _ :: _, [] => false
  | a :: as, b :: bs => a = b && pfx as bs

/-- A word-table row: `WordIndexRow { word, docs }` from src/word_index.rs,
with the `RoaringBitmap` of document ids as a `Finset ℕ`. -/
structure WRow where
  word : Word
  docs : Finset ℕ
deriving DecidableEq

/-- A word table (`WordIndex`): rows kept sorted strictly ascending by word. -/
abbrev Table := List WRow

/-- Sortedness of a word list (strictly ascending), as a decidable Bool. -/
def sortedW : List Word → Bool
  | [] => true
  | [_] => true
  | a :: b :: r => ltb a b && sortedW (b :: r)

/-- Sortedness of a word table: rows strictly ascending by word. -/
def sortedT (t : Table) : Bool := sortedW (t.map (·.word))

/-- The document set of the (unique, on sorted tables) row holding `w`.
`binary_search_by_key(&word, |t| t.word)` finds exactly this row. -/
def rowLookup : Table → Word → Option (Finset ℕ)
  | [], _ => none
  | r :: rs, w => if r.word = w then some r.docs else rowLookup rs w

/-- A match produced by a word-table query: `MatchEntry { distance, docs, word }`
from src/match_entry.rs, with the distance as the plain integer that
src/word_index.rs stores in its `MatchDistance` newtype. -/
structure FMatch where
  distance : Nat
  docs : Finset ℕ
  word : Word
deriving DecidableEq

/-- `WordIndexRow::match_entry_eq_distance`: the distance is the byte-length
difference of row word and query word, saturated at 255. -/
def matchEntryEq (r : WRow) (w : Word) : FMatch :=
  ⟨min (byteLen r.word - byteLen w) 255, r.docs, r.word⟩

/-- `WordIndex::starts_with`: binary-search the lower bound of `w` (on a sorted
table that is the maximal run of rows with word below `w`, embedded as
`dropWhile`), then scan forward while the row's word still has `w` as a
prefix. The early return when the insertion point is past the end is the
`takeWhile` of the empty remainder. -/
def startsWithOp (t : Table) (w : Word) : List FMatch :=
  ((t.dropWhile fun r => ltb r.word w).takeWhile fun r => pfx w r.word).map
    (matchEntryEq · w)

/-- Result of evaluating a Levenshtein DFA on a word, the external crate's
`levenshtein_automata::Distance`. `WordIndex::fuzzy` only consumes this
result, so the DFA is a parameter of the embedding. -/
inductive DfaDist
  | exact (k : Nat)
  | atLeast (k : Nat)
deriving DecidableEq

/-- Whether a DFA evaluation is `Exact`. -/
def DfaDist.isExact : DfaDist → Bool
  | .exact _ => true
  | .atLeast _ => false

/-- The edit count carried by a DFA evaluation. -/
def DfaDist.val : DfaDist → Nat
  | .exact k => k
  | .atLeast k => k

/-- `WordIndex::fuzzy`: linear scan; rows whose DFA evaluation is `AtLeast` are
skipped; an `Exact(k)` row yields distance `k + min(|bytelen − qlen|, 63)`
(the saturating subtractions in both directions sum to the absolute
difference, and `0b111111 = 63` caps it). -/
def fuzzyOp (t : Table) (eval : Word → DfaDist) (qlen : Nat) : List FMatch :=
  t.filterMap fun r =>
    match eval r.word with
    | .atLeast _ => none
    | .exact k =>
        some ⟨k + min ((byteLen r.word - qlen) + (qlen - byteLen r.word)) 63,
              r.docs, r.word⟩

/-- `WordIndex::insert_word_doc`: binary-search; insert a fresh row at the
insertion point when absent; set bit `d` in the row. The Bool records
whether the row was absent (in the source this is the branch that interns
the word). -/
def tableInsert : Table → Word → ℕ → Table × Bool
  | [], w, d => ([⟨w, {d}⟩], true)
  | r :: rs, w, d =>
    if r.word = w then (⟨r.word, insert d r.docs⟩ :: rs, false)
    else if ltb w r.word then (⟨w, {d}⟩ :: r :: rs, true)
    else
      let p := tableInsert rs w d
      (r :: p.1, p.2)

/-- `WordIndex::remove_word_doc`: binary-search; when found, clear bit `d` and
drop the row if its bitmap became empty, returning whether it was dropped;
when absent, return `true`. -/
def tableRemove : Table → Word → ℕ → Table × Bool
  | [], _, _ => ([], true)
  | r :: rs, w, d =>
    if r.word = w then
      let ds := r.docs.erase d
      if ds = ∅ then (rs, true) else (⟨r.word, ds⟩ :: rs, false)
    else
      let p := tableRemove rs w d
      (r :: p.1, p.2)

/-- A `RoaringBitmap` over document ids: every value reachable in
`Searcher::query` is either a finite set or the complement of a finite set
(`RoaringBitmap::full()` is the complement of the empty set). -/
inductive Bitmap
  | fin (s : Finset ℕ)
  | cofin (s : Finset ℕ)
deriving DecidableEq

/-- Bit membership in a bitmap. -/
def memB : Bitmap → ℕ → Bool
  | .fin s, n => n ∈ s
  | .cofin s, n => n ∉ s

/-- The empty bitmap (`RoaringBitmap::new`, also `Default`). -/
def bempty : Bitmap := .fin ∅

/-- The full bitmap (`RoaringBitmap::full`). -/
def bfull : Bitmap := .cofin ∅

/-- Bitmap union (`|=`). -/
def bunion : Bitmap → Bitmap → Bitmap
  | .fin s, .fin t => .fin (s ∪ t)
  | .fin s, .cofin t => .cofin (t \ s)
  | .cofin s, .fin t => .cofin (s \ t)
  | .cofin s, .cofin t => .cofin (s ∩ t)

/-- Bitmap intersection (`&=`, `&`). -/
def binter : Bitmap → Bitmap → Bitmap
  | .fin s, .fin t => .fin (s ∩ t)
  | .fin s, .cofin t => .fin (s \ t)
  | .cofin s, .fin t => .fin (t \ s)
  | .cofin s, .cofin t => .cofin (s ∪ t)

/-- Bitmap difference (`-=`). -/
def bdiff : Bitmap → Bitmap → Bitmap
  | .fin s, .fin t => .fin (s \ t)
  | .fin s, .cofin t => .fin (s ∩ t)
  | .cofin s, .fin t => .cofin (s ∪ t)
  | .cofin s, .cofin t => .fin (t \ s)

/-- `RoaringBitmap::is_empty`; a cofinite bitmap is never empty (over `ℕ`;
over `u32` it could only be empty if the finite part held all 2^32 ids,
which no reachable value does). -/
def bIsEmpty : Bitmap → Bool
  | .fin s => s = ∅
  | .cofin _ => false

/-- Presence of a query word, src/presence.rs. -/
inductive Presence
  | optional
  | required
  | denied
deriving DecidableEq

/-- What `Searcher::query` sees of one `WordQuery` after running it against
both orientation indices: its presence and the document sets of the match
entries collected in `forward_temp` / `backward_temp`. -/
structure QWordRes where
  presence : Presence
  fwd : List Bitmap
  bwd : List Bitmap
deriving DecidableEq

/-- `add_entries`: fold the match entries' doc sets into an accumulator. -/
def addEntries (b : Bitmap) (es : List Bitmap) : Bitmap := es.foldl bunion b

/-- `intersect_entries`: intersect the match entries' doc sets into an
accumulator. -/
def intersectEntries (b : Bitmap) (es : List Bitmap) : Bitmap :=
  es.foldl binter b

/-- The word loop of `Searcher::query` (src/searcher.rs lines 112-144):
accumulates `required` (None until the first required word), `optional`
and `denied`; a required word with no matches in either orientation sets
`required` to the empty bitmap and breaks. Returns the three accumulators. -/
def queryLoop : List QWordRes → Option Bitmap → Bitmap → Bitmap →
    Option Bitmap × Bitmap × Bitmap
  | [], req, opt, den => (req, opt, den)
  | q :: rest, req, opt, den =>
    match q.presence with
    | .optional =>
        queryLoop rest req (addEntries (addEntries opt q.fwd) q.bwd) den
    | .denied =>
        queryLoop rest req opt (addEntries (addEntries den q.fwd) q.bwd)
    | .required =>
        if q.fwd.isEmpty && q.bwd.isEmpty then (some bempty, opt, den)
        else
          let r := req.getD bfull
          queryLoop rest
            (some (intersectEntries (intersectEntries r q.fwd) q.bwd)) opt den

/-- The document set `Searcher::query` returns (src/searcher.rs lines
146-154): run the word loop, then combine
`if optional.is_empty() { required.unwrap_or_default() }
 else if let Some(r) = required { optional & r } else { optional }`,
and subtract `denied`. -/
def queryDocIds (qs : List QWordRes) : Bitmap :=
  let acc := queryLoop qs none bempty bempty
  let req := acc.1
  let opt := acc.2.1
  let den := acc.2.2
  bdiff
    (if bIsEmpty opt then req.getD bempty
     else match req with
          | some r => binter opt r
          | none => opt) den

/-- `MatchDistance` of src/match_distance.rs (the tagged variant used by the
comparators): any `Fuzzy` compares worse than any `Exact`. -/
inductive MDist
  | exact (n : Nat)
  | fuzzy (n : Nat)
deriving DecidableEq

/-- `MatchDistance::cmp`. -/
def mdistCmp : MDist → MDist → Ordering
  | .fuzzy a, .fuzzy b => compare a b
  | .fuzzy _, .exact _ => .gt
  | .exact a, .exact b => compare a b
  | .exact _, .fuzzy _ => .lt

/-- `Rec` of src/comparers/match_distance_score.rs: best distance for one
query index, if any. -/
structure RecM where
  distance : Option MDist
  index : Nat
deriving DecidableEq

/-- Rust `bool` ordering: `false < true`. -/
def boolCmp : Bool → Bool → Ordering
  | false, true => .lt
  | true, false => .gt
  | _, _ => .eq

/-- `Rec::cmp`: compare distances (a present distance sorts before an absent
one — the Option ordering is inverted in the source), then query index. -/
def recCmp (a b : RecM) : Ordering :=
  match a.distance, b.distance with
  | some l, some r =>
      let o := mdistCmp l r
      if o = .eq then compare a.index b.index else o
  | some _, none => .lt
  | none, some _ => .gt
  | none, none => .eq

/-- Lexicographic comparison of two lists, Rust's `Ord` for slices: compare
element-wise, a strict prefix sorts first. -/
def listCmp (f : α → α → Ordering) : List α → List α → Ordering
  | [], [] => .eq
  | [], _ :: _ => .lt
  | _ :: _, [] => .gt
  | a :: as, b :: bs =>
      let o := f a b
      if o = .eq then listCmp f as bs else o

/-- `MatchDistanceScore`: the sorted vector of per-query-index records. The
`dirty` flag is allocation-reuse bookkeeping and does not enter `cmp`. -/
structure MDScore where
  recs : List RecM
deriving DecidableEq

/-- `MatchDistanceScore::cmp`: an empty score sorts after a non-empty one,
then the record vectors compare lexicographically. -/
def mdScoreCmp (a b : MDScore) : Ordering :=
  let o := boolCmp a.recs.isEmpty b.recs.isEmpty
  if o = .eq then listCmp recCmp a.recs b.recs else o

/-- `ProximitySeqScore`: count of matched query words, proximity, and in-order
sequence count. The `locations` vector is recomputation scratch and does
not enter `cmp`. -/
structure PSScore where
  count : Nat
  proximity : Nat
  seq : Nat
deriving DecidableEq

/-- `ProximitySeqScore::cmp`, transcribed verbatim from
src/comparers/proximity_seq_score.rs lines 88-100: count descending, then
proximity ascending, then `other.seq.cmp(&other.seq)` — the source
compares `other.seq` with itself, so the final component never
discriminates. -/
def psCmp (a b : PSScore) : Ordering :=
  let o := compare b.count a.count
  if o = .eq then
    let o := compare a.proximity b.proximity
    if o = .eq then compare b.seq b.seq else o
  else o

/-- The tier loop of `Comparer::compare` (src/comparers/mod.rs lines 59-84),
over the per-tier sub-scores each side computes: within a tier compare the
match-distance scores, then the proximity-sequence scores, short-circuit
on the first inequality; when one side runs out of tiers first the Options
are compared reversed (`(None, Some) => Greater`, `(Some, None) => Less`). -/
def compareTiers : List (MDScore × PSScore) → List (MDScore × PSScore) → Ordering
  | l :: ls, r :: rs =>
      let o := mdScoreCmp l.1 r.1
      if o ≠ .eq then o
      else
        let o := psCmp l.2 r.2
        if o ≠ .eq then o else compareTiers ls rs
  | [], _ :: _ => .gt
  | _ :: _, [] => .lt
  | [], [] => .eq

/-- Modelled from the spec: src/ lacks direction.rs (lib.rs declares
`mod direction`); §3 of the spec defines `direction ∈ {Forward, Backward}`
and §4.A: backward tables store words reversed. -/
inductive Direction
  | forward
  | backward
deriving DecidableEq

/-- `directional_word`: the form of a token stored in an orientation's tables
(`Backward` reverses the characters). -/
def dirWord : Direction → Word → Word
  | .forward, w => w
  | .backward, w => w.reverse

/-- `StrIntern::insert` on the sorted interner: binary-search; insert the word
at its insertion point when absent (present entries are reused — the
interner deduplicates). -/
def internInsert : List Word → Word → List Word
  | [], w => [w]
  | x :: xs, w =>
    if x = w then x :: xs
    else if ltb w x then w :: x :: xs
    else x :: internInsert xs w

/-- `StrIntern::remove`: binary-search; remove the entry when present. -/
def internRemove : List Word → Word → List Word
  | [], _ => []
  | x :: xs, w => if x = w then xs else x :: internRemove xs w

/-- The contents of an `FxHashSet` of words, fixed to sorted deduplicated
order (the source iterates hash sets in unspecified order; the per-word
operations below commute, so the order does not affect final states). -/
def dedupSort (ws : List Word) : List Word := ws.foldl internInsert []

/-- A per-document record (`Doc`): one word list per attribute index in this
orientation. Word identity is word value: the source keys these lists by
interned pointers, and within one orientation's interner pointer equality
coincides with string equality. -/
abbrev DocM := List (List Word)

/-- `Doc::contains_word`. -/
def docContains (doc : DocM) (w : Word) : Bool :=
  doc.any fun a => decide (w ∈ a)

/-- An attribute record (`searcher::Attr`). -/
structure AttrRec where
  culture : Option ℕ
  direction : Direction
  priority : ℕ
  index : ℕ
deriving DecidableEq

/-- An orientation index (`Index`): direction, per-document records,
per-culture word tables, and the interner. -/
structure IndexM where
  direction : Direction
  docs : List DocM
  tables : List Table
  intern : List Word
deriving DecidableEq

/-- `Index::get_doc_attribute_words`: empty for missing docs or attributes. -/
def getDocAttributeWords (s : IndexM) (d : ℕ) (ai : ℕ) : List Word :=
  (s.docs.getD d []).getD ai []

/-- `word_indexes`: the per-culture tables an attribute writes to, as indices
into the table vector — the attribute's culture when declared (empty when
out of range, as `get_mut(i..i+1).unwrap_or_default()`), else all tables. -/
def selIdxs (culture : Option ℕ) (n : ℕ) : List ℕ :=
  match culture with
  | some c => if c < n then [c] else []
  | none => List.range n

/-- `ensure_size`: grow a vector with default entries up to index `i`. -/
def ensureSize (l : List α) (i : ℕ) (dflt : α) : List α :=
  l ++ List.replicate (i + 1 - l.length) dflt

/-- `Index::remove_word_doc` (private): drop `(w, d)` from every culture's
table; when every table reports the word gone, drop it from the interner. -/
def removeWordDocAll (tables : List Table) (intern : List Word) (w : Word)
    (d : ℕ) : List Table × List Word :=
  let rs := tables.map fun t => tableRemove t w d
  (rs.map (·.1), if rs.all (·.2) then internRemove intern w else intern)

/-- `Index::remove_words_doc`: iterate a word set. -/
def removeWordsDoc (tables : List Table) (intern : List Word) (ws : List Word)
    (d : ℕ) : List Table × List Word :=
  ws.foldl (fun p w => removeWordDocAll p.1 p.2 w d) (tables, intern)

/-- `Index::remove_doc`: missing docs are a no-op; otherwise replace the doc
record with an empty one, collect every word it referenced, and drop
`(word, d)` from every culture's table. -/
def removeDoc (s : IndexM) (d : ℕ) : IndexM :=
  match s.docs.get? d with
  | none => s
  | some doc =>
    let r := removeWordsDoc s.tables s.intern (dedupSort doc.flatten) d
    { s with docs := s.docs.set d [], tables := r.1, intern := r.2 }

/-- Insert `(w, d)` into the tables at the given indices with the already
interned word (`WordInternResolver::StaticWord`). -/
def insertAllIdxs (ts : List Table) (idxs : List ℕ) (w : Word) (d : ℕ) :
    List Table :=
  idxs.foldl (fun ts j => ts.set j (tableInsert (ts.getD j []) w d).1) ts

/-- One token of `insert_doc_word_list`: insert into the first selected table
resolving through the interner (interning exactly when the row was
absent), then insert the same word into the remaining selected tables. -/
def insertWordSel (tables : List Table) (intern : List Word) (sel : List ℕ)
    (w : Word) (d : ℕ) : List Table × List Word :=
  match sel with
  | [] => (tables, intern)
  | j :: rest =>
    let r := tableInsert (tables.getD j []) w d
    (insertAllIdxs (tables.set j r.1) rest w d,
     if r.2 then internInsert intern w else intern)

/-- One iteration of the token loop of `insert_doc_word_list`: compute the
directional form of the token and insert it into the selected tables,
appending the inserted word to the word list (nothing happens when no
table is selected, as the source's iterator is empty then). -/
def insertTokStep (sel : List ℕ) (dir : Direction) (d : ℕ)
    (acc : List Table × List Word × List Word) (tok : Word) :
    List Table × List Word × List Word :=
  if sel.isEmpty then acc
  else
    let w := dirWord dir tok
    let r := insertWordSel acc.1 acc.2.1 sel w d
    (r.1, r.2, acc.2.2 ++ [w])

/-- `insert_doc_word_list`: the token loop over the tokenizer's output. -/
def insertDocWordList (tables : List Table) (intern : List Word)
    (sel : List ℕ) (tokens : List Word) (dir : Direction) (d : ℕ) :
    List Table × List Word × List Word :=
  tokens.foldl (insertTokStep sel dir d) (tables, intern, [])

/-- The per-document tail of `Index::insert_doc_attribute`: grow the attrs
vector when needed (a missing attribute with an empty word list is an
early return), record the removed-word set `previous − new`, replace the
word list, keep only removed words no other attribute of the doc still
references, and drop those from every table. -/
def updateDocAttr (s : IndexM) (d ai : ℕ) (wl : List Word) : IndexM :=
  let doc := s.docs.getD d []
  if ai < doc.length ∨ wl ≠ [] then
    let doc₁ := ensureSize doc ai []
    let old := doc₁.getD ai []
    let doc₂ := doc₁.set ai wl
    let removed := ((dedupSort old).filter fun w => !decide (w ∈ wl)).filter
      fun w => !docContains doc₂ w
    let r := removeWordsDoc s.tables s.intern removed d
    { s with docs := s.docs.set d doc₂, tables := r.1, intern := r.2 }
  else s

/-- `Index::insert_doc_attribute`, with the tokenizer factored out: `tokens`
is the token sequence `find_next_word` produces from the attribute value
(the tokenizer's character classification lives in an external crate).
The attribute is fetched by position (`attrs.get_index`); a missing doc
with an empty word list is an early return (the word tables were not
touched, since nothing was inserted). -/
def insertDocAttribute (s : IndexM) (d : ℕ) (ai : ℕ) (tokens : List Word)
    (attrs : List (String × AttrRec)) : IndexM :=
  match attrs.get? ai with
  | none => s
  | some a =>
    let sel := selIdxs a.2.culture s.tables.length
    let r := insertDocWordList s.tables s.intern sel tokens s.direction d
    let s₁ : IndexM := { s with tables := r.1, intern := r.2.1 }
    let wl := r.2.2
    match s.docs.get? d with
    | some _ => updateDocAttr s₁ d ai wl
    | none =>
      if wl = [] then s₁
      else updateDocAttr { s₁ with docs := ensureSize s₁.docs d [] } d ai wl

/-- `Vec::swap_remove`: replace slot `i` with the last element and pop;
`None` when `i` is out of range (`Doc::swap_remove_attr`'s guard). -/
def listSwapRemove (l : List α) (i : ℕ) : Option (α × List α) :=
  match l.get? i with
  | none => none
  | some x =>
    match l.getLast? with
    | none => none
    | some last => some (x, l.dropLast.set i last)

/-- The fold inside `Index::swap_remove_attr`'s word loop over the selected
tables: remove `(w, d)` from each, and-folding the returned flags. -/
def removeFromSel (tables : List Table) (sel : List ℕ) (w : Word) (d : ℕ) :
    List Table × Bool :=
  sel.foldl
    (fun p j =>
      let r := tableRemove (p.1.getD j []) w d
      (p.1.set j r.1, r.2 && p.2))
    (tables, true)

/-- The word loop of `Index::swap_remove_attr` for one document: skip words
the doc still references elsewhere; remove the rest from the selected
tables; when every selected table reports the word gone, either drop it
from the interner right away (cultureless attribute) or defer it to the
log. -/
def swapRemoveWords (tables : List Table) (intern : List Word)
    (logW : List Word) (sel : List ℕ) (fastDelete : Bool) (doc' : DocM)
    (ws : List Word) (d : ℕ) : List Table × List Word × List Word :=
  ws.foldl
    (fun acc w =>
      if docContains doc' w then acc
      else
        let r := removeFromSel acc.1 sel w d
        if r.2 then
          if fastDelete then (r.1, internRemove acc.2.1 w, acc.2.2)
          else (r.1, acc.2.1, internInsert acc.2.2 w)
        else (r.1, acc.2.1, acc.2.2))
    (tables, intern, logW)

/-- One document of `Index::swap_remove_attr`: pop the attribute entry with
`swap_remove` (skipping short docs), then run the word loop over the
popped words sorted, deduplicated and reversed, as the source does. -/
def swapRemoveDocStep (sel : List ℕ) (fastDelete : Bool) (ai : ℕ)
    (acc : List DocM × List Table × List Word × List Word) (p : ℕ × DocM) :
    List DocM × List Table × List Word × List Word :=
  match listSwapRemove p.2 ai with
  | none => (acc.1 ++ [p.2], acc.2.1, acc.2.2.1, acc.2.2.2)
  | some q =>
    let r := swapRemoveWords acc.2.1 acc.2.2.1 acc.2.2.2 sel fastDelete q.2
      ((dedupSort q.1).reverse) p.1
    (acc.1 ++ [q.2], r.1, r.2.1, r.2.2)

/-- `Index::swap_remove_attr`: per-doc word removal as above, then the
deferred log: drop each logged word from the interner when no culture's
table still contains it. -/
def swapRemoveAttr (s : IndexM) (ai : ℕ) (culture : Option ℕ) : IndexM :=
  let step := s.docs.enum.foldl
    (swapRemoveDocStep (selIdxs culture s.tables.length) culture.isNone ai)
    ([], s.tables, s.intern, [])
  let intern' := step.2.2.2.foldl
    (fun it w =>
      if step.2.1.all (fun t => rowLookup t w = none) then internRemove it w
      else it)
    step.2.2.1
  { s with docs := step.1, tables := step.2.1, intern := intern' }

/-- The rebuild loop of `Index::ensure_culture`: for every document, replay
the words of every cultureless attribute of this orientation into each
newly added culture table (statically interned — the words are owned
already). -/
def rebuildNew (tables : List Table) (newIdxs : List ℕ) (docs : List DocM)
    (attrIdxs : List ℕ) : List Table :=
  docs.enum.foldl
    (fun ts p =>
      (dedupSort ((attrIdxs.map fun ai => p.2.getD ai []).flatten)).foldl
        (fun ts w => insertAllIdxs ts newIdxs w p.1) ts)
    tables

/-- `Index::ensure_culture`: drop all tables when the orientation has no
attribute left; else resize the per-culture vector to `max culture + 1`
(cultures of both directions — the source takes the maximum over the
whole attribute map), rebuilding freshly added tables from cultureless
attributes when data already existed. -/
def ensureCulture (s : IndexM) (attrs : List (String × AttrRec)) : IndexM :=
  if !attrs.any (fun p => p.2.direction = s.direction) then
    { s with tables := [] }
  else
    let count := ((attrs.filterMap fun p => p.2.culture).foldl max 0) + 1
    if s.tables.length = count then s
    else if count < s.tables.length then { s with tables := s.tables.take count }
    else
      let grown := s.tables ++ List.replicate (count - s.tables.length) []
      if s.tables.isEmpty then { s with tables := grown }
      else
        let attrIdxs := attrs.filterMap fun p =>
          if p.2.culture = none ∧ p.2.direction = s.direction then some p.2.index
          else none
        if attrIdxs.isEmpty then { s with tables := grown }
        else
          { s with
            tables := rebuildNew grown
              (List.range' s.tables.length (count - s.tables.length)) s.docs
              attrIdxs }

/-- The `Searcher` facade: ordered attribute map, memoized tier table
(`OnceCell`, `none` when uninitialized), and both orientation indices.
The reusable `IndexLog` scratch is cleared before every use and carries
no state, so it is not modelled. -/
structure SearcherM where
  attrs : List (String × AttrRec)
  attrsPriorities : Option (List (List (ℕ × List (Direction × ℕ))))
  backward : IndexM
  forward : IndexM
deriving DecidableEq

/-- `direction_index`: select an orientation index. -/
def dirIndexGet (s : SearcherM) : Direction → IndexM
  | .forward => s.forward
  | .backward => s.backward

/-- Store back an orientation index. -/
def dirIndexSet (s : SearcherM) (dir : Direction) (ix : IndexM) : SearcherM :=
  match dir with
  | .forward => { s with forward := ix }
  | .backward => { s with backward := ix }

/-- The renumbering pass of `Searcher::reindex_attribute`: attributes of the
direction get dense indices in map order. -/
def renumber (attrs : List (String × AttrRec)) (dir : Direction) :
    List (String × AttrRec) :=
  (attrs.foldl
    (fun acc p =>
      if p.2.direction = dir then
        (acc.1 ++ [(p.1, { p.2 with index := acc.2 })], acc.2 + 1)
      else (acc.1 ++ [p], acc.2))
    ([], 0)).1

/-- `Searcher::reindex_attribute`: renumber, invalidate the tier memo, and
re-ensure the culture tables of the affected orientation. -/
def reindexAttribute (s : SearcherM) (dir : Direction) : SearcherM :=
  let attrs := renumber s.attrs dir
  let s₁ : SearcherM :=
    { s with attrs := attrs, attrsPriorities := none }
  dirIndexSet s₁ dir (ensureCulture (dirIndexGet s₁ dir) attrs)

/-- `AttrProps` (src/attr_props.rs). -/
structure AttrPropsM where
  culture : Option ℕ
  direction : Direction
  priority : ℕ
deriving DecidableEq

/-- `Searcher::set_attribute`: `false` and no change when the id is already
present; else insert and reindex the attribute's direction. -/
def setAttribute (s : SearcherM) (name : String) (p : AttrPropsM) :
    Bool × SearcherM :=
  if s.attrs.any (fun q => q.1 = name) then (false, s)
  else
    (true,
     reindexAttribute
       { s with
         attrs := s.attrs ++ [(name, ⟨p.culture, p.direction, p.priority, 0⟩)] }
       p.direction)

/-- `Searcher::remove_attr`: shift-remove the entry from the map, swap-remove
its column from the orientation index, then reindex that direction. -/
def removeAttr (s : SearcherM) (name : String) : Bool × SearcherM :=
  match s.attrs.find? (fun q => q.1 = name) with
  | none => (false, s)
  | some q =>
    let s₁ : SearcherM := { s with attrs := s.attrs.eraseP (fun r => r.1 = name) }
    let s₂ := dirIndexSet s₁ q.2.direction
      (swapRemoveAttr (dirIndexGet s₁ q.2.direction) q.2.index q.2.culture)
    (true, reindexAttribute s₂ q.2.direction)

/-- `Searcher::get_doc_attr_words`: resolve the attribute by name and read its
per-document indexed word list from the matching orientation. -/
def sGetDocAttrWords (s : SearcherM) (d : ℕ) (name : String) : List Word :=
  match s.attrs.find? (fun q => q.1 = name) with
  | none => []
  | some q => getDocAttributeWords (dirIndexGet s q.2.direction) d q.2.index

/-- The effect of `remove_word_doc` on the document set of one row: clear
bit `d`, dropping the row (`none`) when the set empties. -/
def remT (d : ℕ) (o : Option (Finset ℕ)) : Option (Finset ℕ) :=
  o.bind fun ds => if ds.erase d = ∅ then none else some (ds.erase d)

/-- The flag `remove_word_doc` returns, as a function of the row looked up:
`true` when the word is absent or its row was dropped. -/
def remFlag (d : ℕ) (o : Option (Finset ℕ)) : Bool :=
  match o with
  | none => true
  | some ds => decide (ds.erase d = ∅)

/-- The effect of `insert_word_doc` on the document set of one row: set bit
`d`, creating a fresh singleton when the row was absent. -/
def insT (d : ℕ) (o : Option (Finset ℕ)) : Finset ℕ :=
  match o with
  | some ds => insert d ds
  | none => {d}

/-- Whether `Index::remove_word_doc` drops the word from the interner: every
culture's table either lacks the word or empties its row. -/
def dropCond (tables : List Table) (d : ℕ) (w : Word) : Bool :=
  tables.all fun t => remFlag d (rowLookup t w)

/-- A concrete searcher for exercising `remove_attr`: three forward,
cultureless attributes "a", "b", "c" (dense indices 0, 1, 2) and one
document whose three attributes hold the words "a", "b", "c". -/
def c7Searcher : SearcherM :=
  ⟨[("a", ⟨none, .forward, 0, 0⟩), ("b", ⟨none, .forward, 0, 1⟩),
    ("c", ⟨none, .forward, 0, 2⟩)], none,
   ⟨.backward, [], [], []⟩,
   ⟨.forward, [[[['a']], [['b']], [['c']]]],
    [[⟨['a'], {0}⟩, ⟨['b'], {0}⟩, ⟨['c'], {0}⟩]],
    [['a'], ['b'], ['c']]⟩⟩

/-- A two-attribute index for the rebuild round trip: document 0 holds the
word "a" in attribute 0 and the word "b" in attribute 1, both indexed in
the single cultureless table. -/
def c4Two : IndexM :=
  ⟨.forward, [[[['a']], [['b']]]],
   [[⟨['a'], {0}⟩, ⟨['b'], {0}⟩]],
   [['a'], ['b']]⟩

/-- The attribute list matching `c4Two`: two cultureless forward attributes
with dense indices 0 and 1. -/
def c4TwoAttrs : List (String × AttrRec) :=
  [("x", ⟨none, .forward, 0, 0⟩), ("y", ⟨none, .forward, 0, 1⟩)]

/-- A single-attribute index for the rebuild round trip: document 0 holds
the word "a" in attribute 0, indexed in the single cultureless table. -/
def c4One : IndexM :=
  ⟨.forward, [[[['a']]]], [[⟨['a'], {0}⟩]], [['a']]⟩

/-- The attribute list matching `c4One`: one cultureless forward attribute
with dense index 0. -/
def c4OneAttrs : List (String × AttrRec) :=
  [("x", ⟨none, .forward, 0, 0⟩)]

/-! Order and prefix lemmas for words. -/

theorem ltb_irrefl : ∀ w : Word, ltb w w = false
  | [] => rfl
  | a :: as => by simp [ltb, ltb_irrefl as]

theorem ltb_trans : ∀ a b c : Word, ltb a b = true → ltb b c = true →
    ltb a c = true := by
  intro a
  induction a with
  | nil =>
    intro b c h1 h2
    cases b with
    | nil => simp [ltb] at h1
    | cons y ys =>
      cases c with
      | nil => simp [ltb] at h2
      | cons z zs => simp [ltb]
  | cons x xs ih =>
    intro b c h1 h2
    cases b with
    | nil => simp [ltb] at h1
    | cons y ys =>
      cases c with
      | nil => simp [ltb] at h2
      | cons z zs =>
        simp only [ltb] at h1 h2 ⊢
        rcases lt_trichotomy x y with hxy | hxy | hxy
        · rcases lt_trichotomy y z with hyz | hyz | hyz
          · simp [lt_trans hxy hyz]
          · subst hyz; simp [hxy]
          · simp [hyz, not_lt.2 (le_of_lt hyz)] at h2
        · subst hxy
          rcases lt_trichotomy x z with hxz | hxz | hxz
          · simp [hxz]
          · subst hxz
            simp only [lt_irrefl, if_false] at h1 h2 ⊢
            exact ih ys zs h1 h2
          · simp [hxz, not_lt.2 (le_of_lt hxz)] at h2
        · simp [hxy, not_lt.2 (le_of_lt hxy)] at h1

theorem ltb_asymm : ∀ a b : Word, ltb a b = true → ltb b a = false := by
  intro a b h
  by_contra hc
  have h2 : ltb b a = true := by
    cases hb : ltb b a
    · exact absurd hb hc
    · rfl
  have := ltb_trans a b a h h2
  simp [ltb_irrefl] at this

theorem ltb_conn : ∀ a b : Word, ltb a b = false → ltb b a = false → a = b := by
  intro a
  induction a with
  | nil =>
    intro b h1 _
    cases b with
    | nil => rfl
    | cons y ys => simp [ltb] at h1
  | cons x xs ih =>
    intro b h1 h2
    cases b with
    | nil => simp [ltb] at h2
    | cons y ys =>
      simp only [ltb] at h1 h2
      rcases lt_trichotomy x y with hxy | hxy | hxy
      · simp [hxy] at h1
      · subst hxy
        simp only [lt_irrefl, if_false] at h1 h2
        rw [ih ys h1 h2]
      · simp [hxy, not_lt.2 (le_of_lt hxy)] at h2

theorem pfx_ltb_false : ∀ s w : Word, pfx s w = true → ltb w s = false
  | [], [], _ => rfl
  | [], _ :: _, _ => rfl
  | _ :: _, [], h => by simp [pfx] at h
  | a :: as, b :: bs, h => by
    simp only [pfx, Bool.and_eq_true, decide_eq_true_eq] at h
    obtain ⟨rfl, h2⟩ := h
    simp only [ltb, lt_irrefl, if_false]
    exact pfx_ltb_false as bs h2

theorem pfx_interval : ∀ s u v : Word, ltb u s = false → ltb u v = true →
    pfx s v = true → pfx s u = true := by
  intro s
  induction s with
  | nil => intro u v _ _ _; cases u <;> rfl
  | cons c s' ih =>
    intro u v h1 h2 h3
    cases u with
    | nil => simp [ltb] at h1
    | cons a u' =>
      cases v with
      | nil => simp [ltb] at h2
      | cons d v' =>
        simp only [pfx, Bool.and_eq_true, decide_eq_true_eq] at h3
        obtain ⟨rfl, h3⟩ := h3
        simp only [ltb] at h1 h2
        rcases lt_trichotomy a c with hac | hac | hac
        · simp [hac] at h1
        · subst hac
          simp only [lt_irrefl, if_false] at h1 h2
          simp only [pfx, Bool.and_eq_true, decide_eq_true_eq]
          exact ⟨by trivial, ih u' v' h1 h2 h3⟩
        · simp [hac, not_lt.2 (le_of_lt hac)] at h2

/-! Sortedness as pairwise strict ascent. -/

theorem sortedW_iff : ∀ l : List Word,
    sortedW l = true ↔ List.Pairwise (fun a b : Word => ltb a b = true) l := by
  intro l
  induction l with
  | nil => simp [sortedW]
  | cons a l ih =>
    cases l with
    | nil => simp [sortedW]
    | cons b r =>
      rw [sortedW, Bool.and_eq_true, ih]
      constructor
      · rintro ⟨hab, hp⟩
        refine List.Pairwise.cons ?_ hp
        intro x hx
        rcases List.mem_cons.1 hx with rfl | hx
        · exact hab
        · exact ltb_trans a b x hab ((List.pairwise_cons.1 hp).1 x hx)
      · intro hp
        rcases List.pairwise_cons.1 hp with ⟨h1, h2⟩
        exact ⟨h1 b (List.mem_cons_self b r), h2⟩

theorem sortedT_iff (t : Table) :
    sortedT t = true ↔
      List.Pairwise (fun a b : WRow => ltb a.word b.word = true) t := by
  rw [sortedT, sortedW_iff, List.pairwise_map]

theorem sortedT_cons {r : WRow} {t : Table} (h : sortedT (r :: t) = true) :
    sortedT t = true ∧ ∀ x ∈ t, ltb r.word x.word = true := by
  rw [sortedT_iff] at h
  rcases List.pairwise_cons.1 h with ⟨h1, h2⟩
  exact ⟨(sortedT_iff t).2 h2, h1⟩

/-! Generic takeWhile/filter interplay on downward-closed predicates. -/

theorem takeWhileEqFilter {α : Type} (p : α → Bool) :
    ∀ l : List α, List.Pairwise (fun a b => p b = true → p a = true) l →
      l.takeWhile p = l.filter p := by
  intro l
  induction l with
  | nil => simp
  | cons a l ih =>
    intro hp
    rcases List.pairwise_cons.1 hp with ⟨h1, h2⟩
    cases hpa : p a
    · rw [List.takeWhile_cons, List.filter_cons, hpa]
      simp only [Bool.false_eq_true, if_false]
      symm
      rw [List.filter_eq_nil_iff]
      intro b hb hpb
      exact absurd (h1 b hb hpb) (by simp [hpa])
    · rw [List.takeWhile_cons, List.filter_cons, hpa]
      simp only [if_true]
      rw [ih h2]

theorem allNotLtW (w : Word) :
    ∀ t : Table, List.Pairwise (fun a b : WRow => ltb a.word b.word = true) t →
      ∀ r ∈ t.dropWhile (fun r => ltb r.word w), ltb r.word w = false := by
  intro t
  induction t with
  | nil => intro _ r hr; simp [List.dropWhile] at hr
  | cons a t ih =>
    intro hp r hr
    rcases List.pairwise_cons.1 hp with ⟨h1, h2⟩
    rw [List.dropWhile_cons] at hr
    by_cases ha : ltb a.word w = true
    · rw [if_pos ha] at hr
      exact ih h2 r hr
    · rw [if_neg ha] at hr
      rcases List.mem_cons.1 hr with rfl | hr
      · exact Bool.not_eq_true _ ▸ (Bool.eq_false_iff.2 ha)
      · cases hrw : ltb r.word w
        · rfl
        · exact absurd (ltb_trans a.word r.word w (h1 r hr) hrw) ha

/-- Claim C8 (corrected form). For every sorted word table and query word,
`starts_with` returns exactly the rows whose word has the query as a
prefix, in the table's sorted order, each with distance
`min(row.byte_len − query.byte_len, 255)`. -/
theorem C8_amended (t : Table) (w : Word) (hs : sortedT t = true) :
    startsWithOp t w = (t.filter fun r => pfx w r.word).map (matchEntryEq · w) ∧
    sortedW ((startsWithOp t w).map (·.word)) = true := by
  have hp := (sortedT_iff t).1 hs
  have hdrop := allNotLtW w t hp
  have hp2 : List.Pairwise (fun a b : WRow => ltb a.word b.word = true)
      (t.dropWhile fun r => ltb r.word w) :=
    List.Pairwise.sublist (List.dropWhile_sublist _) hp
  have hdc : List.Pairwise
      (fun a b : WRow => pfx w b.word = true → pfx w a.word = true)
      (t.dropWhile fun r => ltb r.word w) := by
    refine hp2.imp_of_mem ?_
    intro a b ha hb hab hpb
    exact pfx_interval w a.word b.word (hdrop a ha) hab hpb
  have htf := takeWhileEqFilter (fun r : WRow => pfx w r.word) _ hdc
  have hfsplit : t.filter (fun r => pfx w r.word) =
      (t.dropWhile fun r => ltb r.word w).filter fun r => pfx w r.word := by
    conv_lhs =>
      rw [← List.takeWhile_append_dropWhile
            (p := fun r : WRow => ltb r.word w) (l := t)]
    rw [List.filter_append]
    have hnil : (t.takeWhile fun r => ltb r.word w).filter
        (fun r => pfx w r.word) = [] := by
      rw [List.filter_eq_nil_iff]
      intro r hr hpr
      have h1 : ltb r.word w = true :=
        List.mem_takeWhile_imp (p := fun r : WRow => ltb r.word w) hr
      have h2 : ltb r.word w = false := pfx_ltb_false w r.word hpr
      rw [h1] at h2
      exact Bool.noConfusion h2
    rw [hnil, List.nil_append]
  constructor
  · rw [startsWithOp, htf, hfsplit]
  · rw [startsWithOp, List.map_map]
    have hsub : List.Sublist ((t.dropWhile fun r => ltb r.word w).takeWhile
        fun r => pfx w r.word) t :=
      List.Sublist.trans (List.takeWhile_sublist _) (List.dropWhile_sublist _)
    have hps := List.Pairwise.sublist hsub hp
    have hmapeq : ((·.word) ∘ (matchEntryEq · w)) = fun r : WRow => r.word := rfl
    rw [hmapeq]
    exact (sortedT_iff _).2 hps

set_option maxRecDepth 8000 in
/-- Claim C8's stated distance is wrong on the code: a 300-byte row word
matched by the empty query gets distance 255 (the saturation cap), not
`row.len − query.len = 300`. -/
theorem C8_counterexample :
    (startsWithOp [⟨List.replicate 300 'a', {0}⟩] []).map (·.distance) =
      [255] ∧
    byteLen (List.replicate 300 'a') - byteLen ([] : Word) = 300 ∧
    (255 : ℕ) ≠ 300 := by
  refine ⟨by decide, by decide, by decide⟩

/-- Claim C5 (corrected form). For every word table, DFA evaluation function
and query byte length, `fuzzy` returns exactly the rows whose evaluation
is `Exact(k)` — never an `AtLeast` row — each with distance
`k + min(|row.byte_len − qlen|, 63)`. -/
theorem C5_amended (t : Table) (eval : Word → DfaDist) (qlen : ℕ) :
    fuzzyOp t eval qlen =
      (t.filter fun r => (eval r.word).isExact).map fun r =>
        ⟨(eval r.word).val +
            min ((byteLen r.word - qlen) + (qlen - byteLen r.word)) 63,
         r.docs, r.word⟩ := by
  induction t with
  | nil => rfl
  | cons r t ih =>
    cases hv : eval r.word with
    | exact k =>
      have hh : fuzzyOp (r :: t) eval qlen =
          ⟨k + min ((byteLen r.word - qlen) + (qlen - byteLen r.word)) 63,
           r.docs, r.word⟩ :: fuzzyOp t eval qlen := by
        rw [fuzzyOp, List.filterMap_cons, hv]
        rfl
      rw [hh, ih, List.filter_cons, hv]
      simp only [DfaDist.isExact, if_true, List.map_cons, hv, DfaDist.val]
    | atLeast k =>
      have hh : fuzzyOp (r :: t) eval qlen = fuzzyOp t eval qlen := by
        rw [fuzzyOp, List.filterMap_cons, hv]
        rfl
      rw [hh, ih, List.filter_cons, hv]
      simp only [DfaDist.isExact, Bool.false_eq_true, if_false]

/-- Claim C5's stated distance is wrong on the code: with a 64-byte row word,
an evaluation returning `Exact 0` and query length 0, the returned
distance is the cap 63, not `|row.len − qlen| + k = 64`. -/
theorem C5_counterexample :
    (fuzzyOp [⟨List.replicate 64 'a', {0}⟩] (fun _ => DfaDist.exact 0) 0).map
        (·.distance) = [63] ∧
    byteLen (List.replicate 64 'a') - 0 + (0 - byteLen (List.replicate 64 'a')) +
        0 = 64 ∧
    (63 : ℕ) ≠ 64 := by
  refine ⟨by decide, by decide, by decide⟩

/-- Claim C6 (corrected form). On a sorted word table: when a row for `w`
exists, `remove` clears bit `d` in it, removes the row exactly when its
bitmap becomes empty, and returns whether the row was removed; when no
row for `w` exists, the call leaves the table unchanged and returns
`true` (the caller reads the flag as "no table row references the word
anymore", which drives interner cleanup). -/
theorem C6_amended :
    ∀ (t : Table) (w : Word) (d : ℕ), sortedT t = true →
      (rowLookup t w = none → tableRemove t w d = (t, true)) ∧
      ∀ ds, rowLookup t w = some ds →
        (tableRemove t w d).2 = decide (ds.erase d = ∅) ∧
        (tableRemove t w d).1 =
          (if ds.erase d = ∅ then t.eraseP fun r => decide (r.word = w)
           else t.map fun r => if r.word = w then ⟨w, ds.erase d⟩ else r) := by
  intro t
  induction t with
  | nil =>
    intro w d _
    exact ⟨fun _ => rfl, fun ds hds => by simp [rowLookup] at hds⟩
  | cons r rs ih =>
    intro w d hs
    rcases sortedT_cons hs with ⟨hs', hgt⟩
    by_cases hrw : r.word = w
    · refine ⟨fun hnone => ?_, fun ds hds => ?_⟩
      · rw [rowLookup, if_pos hrw] at hnone
        cases hnone
      · rw [rowLookup, if_pos hrw] at hds
        injection hds with hds
        subst hds
        have hrm : tableRemove (r :: rs) w d =
            (if r.docs.erase d = ∅ then (rs, true)
             else (⟨r.word, r.docs.erase d⟩ :: rs, false)) := by
          rw [tableRemove, if_pos hrw]
        by_cases he : r.docs.erase d = ∅
        · rw [if_pos he] at hrm
          rw [hrm, if_pos he]
          exact ⟨by simp [he], by rw [List.eraseP_cons_of_pos (by simp [hrw])]⟩
        · rw [if_neg he] at hrm
          rw [hrm, if_neg he]
          refine ⟨by simp [he], ?_⟩
          show (⟨r.word, r.docs.erase d⟩ : WRow) :: rs = _
          rw [List.map_cons, if_pos hrw, hrw]
          have htl : ∀ x ∈ rs,
              (if x.word = w then (⟨w, r.docs.erase d⟩ : WRow) else x) = x := by
            intro x hx
            have hlt := hgt x hx
            rw [hrw] at hlt
            rw [if_neg]
            intro hxw
            rw [hxw, ltb_irrefl] at hlt
            cases hlt
          rw [List.map_congr_left htl, List.map_id']
    · have hrec := ih w d hs'
      have hrm : tableRemove (r :: rs) w d =
          (r :: (tableRemove rs w d).1, (tableRemove rs w d).2) := by
        rw [tableRemove, if_neg hrw]
      refine ⟨fun hnone => ?_, fun ds hds => ?_⟩
      · rw [rowLookup, if_neg hrw] at hnone
        rw [hrm, hrec.1 hnone]
      · rw [rowLookup, if_neg hrw] at hds
        rcases hrec.2 ds hds with ⟨hf, ht⟩
        rw [hrm]
        refine ⟨hf, ?_⟩
        by_cases he : ds.erase d = ∅
        · rw [if_pos he] at ht ⊢
          rw [List.eraseP_cons_of_neg (by simp [hrw]), ht]
        · rw [if_neg he] at ht ⊢
          rw [List.map_cons, if_neg hrw, ht]

/-- Claim C6's stated return contract is wrong on the code: removing a word
absent from the table removes no row yet returns `true`. -/
theorem C6_counterexample :
    tableRemove ([] : Table) ['a'] 0 = ([], true) ∧
    rowLookup ([] : Table) ['a'] = none := by
  exact ⟨rfl, rfl⟩

/-- Claim C10. `insert_word_doc` always leaves bit `d` set in the row for `w`,
and both `insert_word_doc` and `remove_word_doc` preserve the invariant
that no word-table row has an empty document bitmap — the invariant
holds after every operation that touches a word table. -/
theorem C10_no_empty_rows (t : Table) (w : Word) (d : ℕ)
    (h : ∀ r ∈ t, r.docs ≠ ∅) :
    (∀ r ∈ (tableInsert t w d).1, r.docs ≠ ∅) ∧
    (∀ r ∈ (tableRemove t w d).1, r.docs ≠ ∅) ∧
    ∃ ds, rowLookup (tableInsert t w d).1 w = some ds ∧ d ∈ ds := by
  refine ⟨?_, ?_, ?_⟩
  · induction t with
    | nil =>
      intro r hr
      rcases List.mem_singleton.1 hr with rfl
      simp
    | cons a t ih =>
      have ha := h a (List.mem_cons_self a t)
      have htl : ∀ r ∈ t, r.docs ≠ ∅ := fun r hr => h r (List.mem_cons_of_mem a hr)
      rw [tableInsert]
      by_cases haw : a.word = w
      · rw [if_pos haw]
        intro r hr
        rcases List.mem_cons.1 hr with rfl | hr
        · simp
        · exact htl r hr
      · rw [if_neg haw]
        by_cases hlt : ltb w a.word = true
        · rw [if_pos hlt]
          intro r hr
          rcases List.mem_cons.1 hr with rfl | hr
          · simp
          · exact h r hr
        · rw [if_neg hlt]
          intro r hr
          rcases List.mem_cons.1 hr with rfl | hr
          · exact ha
          · exact ih htl r hr
  · induction t with
    | nil => intro r hr; cases hr
    | cons a t ih =>
      have ha := h a (List.mem_cons_self a t)
      have htl : ∀ r ∈ t, r.docs ≠ ∅ := fun r hr => h r (List.mem_cons_of_mem a hr)
      rw [tableRemove]
      by_cases haw : a.word = w
      · rw [if_pos haw]
        by_cases he : a.docs.erase d = ∅
        · rw [if_pos he]
          exact htl
        · rw [if_neg he]
          intro r hr
          rcases List.mem_cons.1 hr with rfl | hr
          · exact he
          · exact htl r hr
      · rw [if_neg haw]
        intro r hr
        rcases List.mem_cons.1 hr with rfl | hr
        · exact ha
        · exact ih htl r hr
  · clear h
    induction t with
    | nil => exact ⟨{d}, by simp [tableInsert, rowLookup], Finset.mem_singleton_self d⟩
    | cons a t ih =>
      rw [tableInsert]
      by_cases haw : a.word = w
      · rw [if_pos haw]
        exact ⟨insert d a.docs, by simp [rowLookup, haw], Finset.mem_insert_self d _⟩
      · rw [if_neg haw]
        by_cases hlt : ltb w a.word = true
        · rw [if_pos hlt]
          exact ⟨{d}, by simp [rowLookup], Finset.mem_singleton_self d⟩
        · rw [if_neg hlt]
          rcases ih with ⟨ds, hds, hmem⟩
          exact ⟨ds, by rw [rowLookup, if_neg haw]; exact hds, hmem⟩

/-- Claim C2's failing input evaluated on the code: two proximity-sequence
scores equal in count and proximity but with seq 1 versus seq 0 compare
`Equal` in both directions — the `seq` component never discriminates,
because the source compares `other.seq` against itself. -/
theorem C2_code_eval :
    psCmp ⟨2, 1, 1⟩ ⟨2, 1, 0⟩ = Ordering.eq ∧
    psCmp ⟨2, 1, 0⟩ ⟨2, 1, 1⟩ = Ordering.eq :=
  ⟨rfl, rfl⟩

theorem natCompareSucc (a b : ℕ) : compare (a + 1) (b + 1) = compare a b := by
  rcases lt_trichotomy a b with h | h | h
  · rw [compare_lt_iff_lt.2 h, compare_lt_iff_lt.2 (by omega)]
  · subst h
    rw [compare_eq_iff_eq.2 rfl, compare_eq_iff_eq.2 rfl]
  · rw [compare_gt_iff_gt.2 h, compare_gt_iff_gt.2 (by omega)]

/-- Claim C3 (corrected form). When every compared tier ties on both
sub-scores, the comparator returns the comparison of the right side's
tier count against the left side's: the side with more priority tiers
sorts better (the side that runs out of tiers first compares Greater). -/
theorem C3_amended :
    ∀ l r : List (MDScore × PSScore),
      (∀ p ∈ l.zip r, mdScoreCmp p.1.1 p.2.1 = .eq ∧ psCmp p.1.2 p.2.2 = .eq) →
      compareTiers l r = compare r.length l.length := by
  intro l
  induction l with
  | nil =>
    intro r _
    cases r with
    | nil => rfl
    | cons y rs =>
      rw [compareTiers, List.length_cons, List.length_nil,
        compare_gt_iff_gt.2 (Nat.succ_pos _)]
  | cons x ls ih =>
    intro r hz
    cases r with
    | nil =>
      rw [compareTiers, List.length_nil, List.length_cons,
        compare_lt_iff_lt.2 (Nat.succ_pos _)]
    | cons y rs =>
      have hh := hz (x, y) (by rw [List.zip_cons_cons]; exact List.mem_cons_self _ _)
      rw [compareTiers, hh.1, hh.2]
      rw [if_neg (by simp), if_neg (by simp)]
      rw [ih rs fun p hp => hz p (by rw [List.zip_cons_cons]; exact List.mem_cons_of_mem _ hp)]
      rw [List.length_cons, List.length_cons, natCompareSucc]

/-- Claim C3 as stated is wrong on the code: with no tiers on the left and
one (tying-irrelevant) tier on the right, the right side has more
priority tiers, so the claim predicts Less (right sorts worse), but the
code returns Greater. -/
theorem C3_counterexample :
    compareTiers [] [(⟨[]⟩, ⟨0, 0, 0⟩)] = Ordering.gt ∧
    Ordering.gt ≠ Ordering.lt :=
  ⟨rfl, by decide⟩

/-- Witness for C3_amended at a concrete input. -/
theorem C3_amended_witness :
    (∀ p ∈ ([] : List (MDScore × PSScore)).zip [(⟨[]⟩, ⟨0, 0, 0⟩)],
        mdScoreCmp p.1.1 p.2.1 = .eq ∧ psCmp p.1.2 p.2.2 = .eq) ∧
    compareTiers [] [(⟨[]⟩, ⟨0, 0, 0⟩)] =
      compare (List.length [((⟨[]⟩ : MDScore), (⟨0, 0, 0⟩ : PSScore))])
        (List.length ([] : List (MDScore × PSScore))) :=
  ⟨by simp, C3_amended [] [(⟨[]⟩, ⟨0, 0, 0⟩)] (by simp)⟩

/-- Claim C9. Setting an attribute whose id is already present returns
`false` and leaves the whole searcher state unchanged (attribute map,
tier memo, and both orientation indices). -/
theorem C9_set_attribute_noop (s : SearcherM) (name : String) (p : AttrPropsM)
    (h : ∃ q ∈ s.attrs, q.1 = name) :
    setAttribute s name p = (false, s) := by
  rcases h with ⟨q, hq, hname⟩
  rw [setAttribute, if_pos]
  exact List.any_eq_true.2 ⟨q, hq, by simp [hname]⟩

/-- Witness for C9_set_attribute_noop at a concrete input. -/
theorem C9_witness :
    (∃ q ∈ ([("a", (⟨none, .forward, 0, 0⟩ : AttrRec))] :
        List (String × AttrRec)), q.1 = "a") ∧
    setAttribute
        ⟨[("a", ⟨none, .forward, 0, 0⟩)], none,
         ⟨.backward, [], [], []⟩, ⟨.forward, [], [], []⟩⟩ "a"
        ⟨none, .forward, 0⟩ =
      (false,
       ⟨[("a", ⟨none, .forward, 0, 0⟩)], none,
        ⟨.backward, [], [], []⟩, ⟨.forward, [], [], []⟩⟩) :=
  ⟨by decide,
   C9_set_attribute_noop
     ⟨[("a", ⟨none, .forward, 0, 0⟩)], none,
      ⟨.backward, [], [], []⟩, ⟨.forward, [], [], []⟩⟩ "a"
     ⟨none, .forward, 0⟩ (by decide)⟩

/-! Membership lemmas for the finite/cofinite bitmap algebra. -/

theorem memB_bunion (a b : Bitmap) (n : ℕ) :
    memB (bunion a b) n = true ↔ memB a n = true ∨ memB b n = true := by
  cases a <;> cases b <;>
    simp [memB, bunion, Finset.mem_union, Finset.mem_sdiff, Finset.mem_inter]
  all_goals tauto

theorem memB_binter (a b : Bitmap) (n : ℕ) :
    memB (binter a b) n = true ↔ memB a n = true ∧ memB b n = true := by
  cases a <;> cases b <;>
    simp [memB, binter, Finset.mem_union, Finset.mem_sdiff, Finset.mem_inter]
  all_goals tauto

theorem memB_bdiff (a b : Bitmap) (n : ℕ) :
    memB (bdiff a b) n = true ↔ memB a n = true ∧ memB b n = false := by
  cases a <;> cases b <;>
    simp [memB, bdiff, Finset.mem_union, Finset.mem_sdiff, Finset.mem_inter]
  all_goals tauto

theorem memB_of_bIsEmpty {b : Bitmap} (h : bIsEmpty b = true) (n : ℕ) :
    memB b n = false := by
  cases b with
  | fin s =>
    simp only [bIsEmpty, decide_eq_true_eq] at h
    simp [memB, h]
  | cofin s => simp [bIsEmpty] at h

/-- Claim C1 (corrected form). For every query-word result sequence, a
document is in the set `Searcher::query` returns iff it is in the
intersection of optional and required when optional is non-empty and a
required bitmap exists, else in whichever of the two exists (empty when
neither does), and it is not denied. -/
theorem C1_amended (qs : List QWordRes) (n : ℕ) :
    memB (queryDocIds qs) n = true ↔
      ((match (queryLoop qs none bempty bempty).1 with
        | some r =>
            if bIsEmpty (queryLoop qs none bempty bempty).2.1 then
              memB r n = true
            else
              memB (queryLoop qs none bempty bempty).2.1 n = true ∧
                memB r n = true
        | none => memB (queryLoop qs none bempty bempty).2.1 n = true) ∧
        memB (queryLoop qs none bempty bempty).2.2 n = false) := by
  rw [queryDocIds]
  cases hreq : (queryLoop qs none bempty bempty).1 with
  | none =>
    dsimp only
    by_cases hoe : bIsEmpty (queryLoop qs none bempty bempty).2.1 = true
    · rw [if_pos hoe, Option.getD_none, memB_bdiff]
      constructor
      · intro hmem
        rw [show memB bempty n = false from by simp [memB, bempty]] at hmem
        exact absurd hmem.1 (by simp)
      · intro hmem
        rw [memB_of_bIsEmpty hoe] at hmem
        exact absurd hmem.1 (by simp)
    · rw [if_neg hoe, memB_bdiff]
  | some r =>
    dsimp only
    by_cases hoe : bIsEmpty (queryLoop qs none bempty bempty).2.1 = true
    · rw [if_pos hoe, Option.getD_some, memB_bdiff, if_pos hoe]
    · rw [if_neg hoe, memB_bdiff, memB_binter, if_neg hoe]

/-- Claim C1 as stated is wrong on the code: with an optional word matching
doc set `{1}` and a required word matching `{1, 2}`, the code intersects
(returning `{1}`), while the claimed union would also contain doc 2. -/
theorem C1_counterexample :
    memB (queryDocIds
        [⟨.optional, [.fin {1}], []⟩, ⟨.required, [.fin {1, 2}], []⟩]) 2 =
      false ∧
    memB (bdiff (bunion
        (queryLoop [⟨.optional, [.fin {1}], []⟩, ⟨.required, [.fin {1, 2}], []⟩]
          none bempty bempty).2.1
        ((queryLoop [⟨.optional, [.fin {1}], []⟩, ⟨.required, [.fin {1, 2}], []⟩]
          none bempty bempty).1.getD bempty))
        (queryLoop [⟨.optional, [.fin {1}], []⟩, ⟨.required, [.fin {1, 2}], []⟩]
          none bempty bempty).2.2) 2 = true :=
  ⟨by decide, by decide⟩

/-- Claim C7 evaluated on the code at the failing input: removing the first
of three registered forward attributes swap-removes each document's
attribute column 0 (moving column 2 into its place) while the remaining
attributes are renumbered in registration order, so attribute "b" now
reads the words that were indexed under "c" — the remaining attributes'
word lists are not preserved. -/
theorem C7_code_eval :
    (removeAttr c7Searcher "a").1 = true ∧
    sGetDocAttrWords c7Searcher 0 "b" = [['b']] ∧
    sGetDocAttrWords (removeAttr c7Searcher "a").2 0 "b" = [['c']] ∧
    sGetDocAttrWords (removeAttr c7Searcher "a").2 0 "b" ≠
      sGetDocAttrWords c7Searcher 0 "b" :=
  ⟨by decide, by decide, by decide, by decide⟩

/-- Witness for C6_amended at a concrete input (a present word whose bitmap
stays non-empty). -/
theorem C6_amended_witness :
    sortedT [⟨['a'], {0, 1}⟩] = true ∧
    rowLookup [⟨['a'], {0, 1}⟩] ['a'] = some {0, 1} ∧
    ((tableRemove [⟨['a'], {0, 1}⟩] ['a'] 0).2 =
        decide (({0, 1} : Finset ℕ).erase 0 = ∅) ∧
      (tableRemove [⟨['a'], {0, 1}⟩] ['a'] 0).1 =
        (if ({0, 1} : Finset ℕ).erase 0 = ∅ then
           ([⟨['a'], {0, 1}⟩] : Table).eraseP fun r => decide (r.word = ['a'])
         else ([⟨['a'], {0, 1}⟩] : Table).map fun r =>
           if r.word = ['a'] then ⟨['a'], ({0, 1} : Finset ℕ).erase 0⟩ else r)) :=
  ⟨by decide, by decide,
   (C6_amended [⟨['a'], {0, 1}⟩] ['a'] 0 (by decide)).2 {0, 1} (by decide)⟩

/-- Witness for C8_amended at a concrete input. -/
theorem C8_amended_witness :
    sortedT [⟨['a'], {0}⟩, ⟨['a', 'b'], {1}⟩, ⟨['b'], {2}⟩] = true ∧
    (startsWithOp [⟨['a'], {0}⟩, ⟨['a', 'b'], {1}⟩, ⟨['b'], {2}⟩] ['a'] =
        (([⟨['a'], {0}⟩, ⟨['a', 'b'], {1}⟩, ⟨['b'], {2}⟩] : Table).filter
          fun r => pfx ['a'] r.word).map (matchEntryEq · ['a']) ∧
      sortedW ((startsWithOp [⟨['a'], {0}⟩, ⟨['a', 'b'], {1}⟩, ⟨['b'], {2}⟩]
        ['a']).map (·.word)) = true) :=
  ⟨by decide,
   C8_amended [⟨['a'], {0}⟩, ⟨['a', 'b'], {1}⟩, ⟨['b'], {2}⟩] ['a'] (by decide)⟩

/-- Witness for C10_no_empty_rows at a concrete input. -/
theorem C10_witness :
    (∀ r ∈ ([⟨['a'], {0}⟩] : Table), r.docs ≠ ∅) ∧
    ((∀ r ∈ (tableInsert [⟨['a'], {0}⟩] ['b'] 1).1, r.docs ≠ ∅) ∧
     (∀ r ∈ (tableRemove [⟨['a'], {0}⟩] ['b'] 1).1, r.docs ≠ ∅) ∧
     ∃ ds, rowLookup (tableInsert [⟨['a'], {0}⟩] ['b'] 1).1 ['b'] = some ds ∧
       1 ∈ ds) :=
  ⟨by decide, C10_no_empty_rows [⟨['a'], {0}⟩] ['b'] 1 (by decide)⟩

/-! Pointwise characterization of the word-table operations on sorted
tables. -/

theorem ltb_total (a b : Word) (h : a ≠ b) :
    ltb a b = true ∨ ltb b a = true := by
  cases hab : ltb a b
  · cases hba : ltb b a
    · exact absurd (ltb_conn a b hab hba) h
    · exact Or.inr rfl
  · exact Or.inl rfl

theorem rowLookup_none_of_gt {t : Table} {w : Word}
    (h : ∀ x ∈ t, ltb w x.word = true) : rowLookup t w = none := by
  induction t with
  | nil => rfl
  | cons r rs ih =>
    rw [rowLookup, if_neg, ih fun x hx => h x (List.mem_cons_of_mem r hx)]
    intro hrw
    have := h r (List.mem_cons_self r rs)
    rw [hrw, ltb_irrefl] at this
    cases this

theorem rowLookup_some_mem {t : Table} {w : Word} {ds : Finset ℕ}
    (h : rowLookup t w = some ds) : ∃ r ∈ t, r.word = w ∧ r.docs = ds := by
  induction t with
  | nil => cases h
  | cons r rs ih =>
    rw [rowLookup] at h
    by_cases hrw : r.word = w
    · rw [if_pos hrw] at h
      injection h with h
      exact ⟨r, List.mem_cons_self r rs, hrw, h⟩
    · rw [if_neg hrw] at h
      rcases ih h with ⟨x, hx, hxw, hxd⟩
      exact ⟨x, List.mem_cons_of_mem r hx, hxw, hxd⟩

theorem lookup_tableRemove (t : Table) (w : Word) (d : ℕ)
    (hs : sortedT t = true) (w' : Word) :
    rowLookup (tableRemove t w d).1 w' =
      (if w' = w then remT d (rowLookup t w) else rowLookup t w') := by
  induction t with
  | nil =>
    by_cases hw : w' = w
    · rw [if_pos hw]; rfl
    · rw [if_neg hw]; rfl
  | cons r rs ih =>
    rcases sortedT_cons hs with ⟨hs', hgt⟩
    by_cases hrw : r.word = w
    · have hnone : rowLookup rs w = none := by
        refine rowLookup_none_of_gt fun x hx => ?_
        have := hgt x hx
        rw [hrw] at this
        exact this
      have hlh : rowLookup (r :: rs) w = some r.docs := by
        rw [rowLookup, if_pos hrw]
      by_cases he : r.docs.erase d = ∅
      · have hrm : (tableRemove (r :: rs) w d).1 = rs := by
          rw [tableRemove, if_pos hrw]
          simp [he]
        rw [hrm, hlh]
        by_cases hw : w' = w
        · subst hw
          rw [if_pos rfl, remT]
          simp [he, hnone]
        · rw [if_neg hw, rowLookup, if_neg (by rw [hrw]; exact fun h => hw h.symm)]
      · have hrm : (tableRemove (r :: rs) w d).1 =
            ⟨r.word, r.docs.erase d⟩ :: rs := by
          rw [tableRemove, if_pos hrw]
          simp [he]
        rw [hrm, hlh]
        by_cases hw : w' = w
        · subst hw
          rw [if_pos rfl, remT]
          show rowLookup ((⟨r.word, r.docs.erase d⟩ : WRow) :: rs) w' =
            if r.docs.erase d = ∅ then none else some (r.docs.erase d)
          rw [if_neg he, rowLookup, if_pos hrw]
        · rw [if_neg hw, rowLookup, rowLookup,
            if_neg (by rw [hrw]; exact fun h => hw h.symm),
            if_neg (by rw [hrw]; exact fun h => hw h.symm)]
    · have hrm : (tableRemove (r :: rs) w d).1 = r :: (tableRemove rs w d).1 := by
        rw [tableRemove, if_neg hrw]
      rw [hrm]
      by_cases hw : w' = w
      · subst hw
        rw [if_pos rfl, rowLookup, if_neg hrw, ih hs', if_pos rfl]
        conv_rhs => rw [rowLookup, if_neg hrw]
      · rw [if_neg hw]
        by_cases hrw' : r.word = w'
        · rw [rowLookup, if_pos hrw', rowLookup, if_pos hrw']
        · rw [rowLookup, if_neg hrw', rowLookup, if_neg hrw', ih hs', if_neg hw]

theorem flag_tableRemove (t : Table) (w : Word) (d : ℕ)
    (hs : sortedT t = true) :
    (tableRemove t w d).2 = remFlag d (rowLookup t w) := by
  induction t with
  | nil => rfl
  | cons r rs ih =>
    rcases sortedT_cons hs with ⟨hs', _⟩
    by_cases hrw : r.word = w
    · rw [tableRemove, if_pos hrw, rowLookup, if_pos hrw, remFlag]
      by_cases he : r.docs.erase d = ∅
      · simp [remFlag, he]
      · simp [remFlag, he]
    · rw [tableRemove, if_neg hrw, rowLookup, if_neg hrw]
      exact ih hs'

theorem wordSublist_tableRemove (t : Table) (w : Word) (d : ℕ) :
    List.Sublist ((tableRemove t w d).1.map (·.word)) (t.map (·.word)) := by
  induction t with
  | nil => exact List.Sublist.refl _
  | cons r rs ih =>
    by_cases hrw : r.word = w
    · rw [tableRemove, if_pos hrw]
      by_cases he : r.docs.erase d = ∅
      · simp only [he, if_true]
        exact List.sublist_cons_of_sublist _ (List.Sublist.refl _)
      · simp only [he, if_false]
        exact List.Sublist.cons₂ _ (List.Sublist.refl _)
    · rw [tableRemove, if_neg hrw]
      exact List.Sublist.cons₂ _ ih

theorem sorted_tableRemove (t : Table) (w : Word) (d : ℕ)
    (hs : sortedT t = true) : sortedT (tableRemove t w d).1 = true := by
  rw [sortedT, sortedW_iff]
  rw [sortedT, sortedW_iff] at hs
  exact List.Pairwise.sublist (wordSublist_tableRemove t w d) hs

theorem lookup_tableInsert (t : Table) (w : Word) (d : ℕ)
    (hs : sortedT t = true) (w' : Word) :
    rowLookup (tableInsert t w d).1 w' =
      (if w' = w then some (insT d (rowLookup t w)) else rowLookup t w') := by
  induction t with
  | nil =>
    by_cases hw : w' = w
    · subst hw
      rw [if_pos rfl]
      show (if w' = w' then some {d} else none) = some (insT d none)
      rw [if_pos rfl]
      rfl
    · rw [if_neg hw]
      show (if w = w' then some {d} else none) = rowLookup [] w'
      rw [if_neg fun h => hw h.symm]
      rfl
  | cons r rs ih =>
    rcases sortedT_cons hs with ⟨hs', hgt⟩
    by_cases hrw : r.word = w
    · have hti : (tableInsert (r :: rs) w d).1 =
          ⟨r.word, insert d r.docs⟩ :: rs := by
        rw [tableInsert, if_pos hrw]
      rw [hti]
      by_cases hw : w' = w
      · subst hw
        rw [if_pos rfl, rowLookup, if_pos hrw, rowLookup, if_pos hrw]
        rfl
      · rw [if_neg hw, rowLookup, if_neg (by rw [hrw]; exact fun h => hw h.symm),
          rowLookup, if_neg (by rw [hrw]; exact fun h => hw h.symm)]
    · by_cases hlt : ltb w r.word = true
      · have hti : (tableInsert (r :: rs) w d).1 = ⟨w, {d}⟩ :: r :: rs := by
          rw [tableInsert, if_neg hrw, if_pos hlt]
        rw [hti]
        have hnone : rowLookup (r :: rs) w = none := by
          refine rowLookup_none_of_gt fun x hx => ?_
          rcases List.mem_cons.1 hx with rfl | hx
          · exact hlt
          · exact ltb_trans w r.word x.word hlt (hgt x hx)
        by_cases hw : w' = w
        · subst hw
          rw [if_pos rfl, hnone, rowLookup, if_pos rfl]
          rfl
        · rw [if_neg hw, rowLookup, if_neg fun h => hw h.symm]
      · have hti : (tableInsert (r :: rs) w d).1 =
            r :: (tableInsert rs w d).1 := by
          rw [tableInsert, if_neg hrw, if_neg hlt]
        rw [hti]
        by_cases hw : w' = w
        · subst hw
          rw [if_pos rfl, rowLookup, if_neg hrw, ih hs', if_pos rfl]
          conv_rhs => rw [rowLookup, if_neg hrw]
        · rw [if_neg hw]
          by_cases hrw' : r.word = w'
          · rw [rowLookup, if_pos hrw', rowLookup, if_pos hrw']
          · rw [rowLookup, if_neg hrw', rowLookup, if_neg hrw', ih hs',
              if_neg hw]

theorem flag_tableInsert (t : Table) (w : Word) (d : ℕ)
    (hs : sortedT t = true) :
    (tableInsert t w d).2 = decide (rowLookup t w = none) := by
  induction t with
  | nil => rfl
  | cons r rs ih =>
    rcases sortedT_cons hs with ⟨hs', hgt⟩
    by_cases hrw : r.word = w
    · rw [tableInsert, if_pos hrw, rowLookup, if_pos hrw]
      simp
    · by_cases hlt : ltb w r.word = true
      · have hnone : rowLookup (r :: rs) w = none := by
          refine rowLookup_none_of_gt fun x hx => ?_
          rcases List.mem_cons.1 hx with rfl | hx
          · exact hlt
          · exact ltb_trans w r.word x.word hlt (hgt x hx)
        rw [tableInsert, if_neg hrw, if_pos hlt, hnone]
        simp
      · rw [tableInsert, if_neg hrw, if_neg hlt, rowLookup, if_neg hrw]
        exact ih hs'

theorem word_mem_tableInsert (t : Table) (w : Word) (d : ℕ) :
    ∀ x ∈ (tableInsert t w d).1, x.word = w ∨ ∃ y ∈ t, x.word = y.word := by
  induction t with
  | nil =>
    intro x hx
    rcases List.mem_singleton.1 hx with rfl
    exact Or.inl rfl
  | cons r rs ih =>
    intro x hx
    by_cases hrw : r.word = w
    · rw [tableInsert, if_pos hrw] at hx
      rcases List.mem_cons.1 hx with rfl | hx
      · exact Or.inl hrw
      · exact Or.inr ⟨x, List.mem_cons_of_mem r hx, rfl⟩
    · by_cases hlt : ltb w r.word = true
      · rw [tableInsert, if_neg hrw, if_pos hlt] at hx
        rcases List.mem_cons.1 hx with rfl | hx
        · exact Or.inl rfl
        · exact Or.inr ⟨x, hx, rfl⟩
      · rw [tableInsert, if_neg hrw, if_neg hlt] at hx
        rcases List.mem_cons.1 hx with rfl | hx
        · exact Or.inr ⟨x, List.mem_cons_self x rs, rfl⟩
        · rcases ih x hx with h | ⟨y, hy, hxy⟩
          · exact Or.inl h
          · exact Or.inr ⟨y, List.mem_cons_of_mem r hy, hxy⟩

theorem sorted_tableInsert (t : Table) (w : Word) (d : ℕ)
    (hs : sortedT t = true) : sortedT (tableInsert t w d).1 = true := by
  induction t with
  | nil => rfl
  | cons r rs ih =>
    rcases sortedT_cons hs with ⟨hs', hgt⟩
    by_cases hrw : r.word = w
    · rw [tableInsert, if_pos hrw]
      rw [sortedT, sortedW_iff] at hs ⊢
      rw [List.map_cons] at hs ⊢
      exact hs
    · by_cases hlt : ltb w r.word = true
      · rw [tableInsert, if_neg hrw, if_pos hlt]
        rw [sortedT, sortedW_iff, List.map_cons, List.pairwise_cons]
        constructor
        · intro x hx
          rcases List.mem_map.1 hx with ⟨y, hy, rfl⟩
          rcases List.mem_cons.1 hy with rfl | hy
          · exact hlt
          · exact ltb_trans w r.word y.word hlt (hgt y hy)
        · rw [← sortedW_iff, ← sortedT]
          exact hs
      · rw [tableInsert, if_neg hrw, if_neg hlt]
        rw [sortedT, sortedW_iff, List.map_cons, List.pairwise_cons]
        constructor
        · intro x hx
          rcases List.mem_map.1 hx with ⟨y, hy, rfl⟩
          rcases word_mem_tableInsert rs w d y hy with h | ⟨z, hz, hyz⟩
          · rw [h]
            rcases ltb_total r.word w (by exact hrw) with h' | h'
            · exact h'
            · exact absurd h' hlt
          · rw [hyz]
            exact hgt z hz
        · rw [← sortedW_iff, ← sortedT]
          exact ih hs'

/-- Sorted tables with identical row lookups are equal. -/
theorem tableExt : ∀ t₁ t₂ : Table, sortedT t₁ = true → sortedT t₂ = true →
    (∀ w, rowLookup t₁ w = rowLookup t₂ w) → t₁ = t₂ := by
  intro t₁
  induction t₁ with
  | nil =>
    intro t₂ _ _ h
    cases t₂ with
    | nil => rfl
    | cons b t₂ =>
      have hb := h b.word
      rw [rowLookup, rowLookup, if_pos rfl] at hb
      cases hb
  | cons a t₁ ih =>
    intro t₂ hs₁ hs₂ h
    cases t₂ with
    | nil =>
      have ha := h a.word
      rw [rowLookup, rowLookup, if_pos rfl] at ha
      cases ha
    | cons b t₂ =>
      rcases sortedT_cons hs₁ with ⟨hs₁', hgt₁⟩
      rcases sortedT_cons hs₂ with ⟨hs₂', hgt₂⟩
      have hab : a.word = b.word := by
        by_contra hab
        have ha := h a.word
        rw [rowLookup, if_pos rfl, rowLookup,
          if_neg fun hh => hab (hh.symm)] at ha
        rcases rowLookup_some_mem ha.symm with ⟨x, hx, hxw, _⟩
        have hb := h b.word
        rw [rowLookup, if_neg hab, rowLookup, if_pos rfl] at hb
        rcases rowLookup_some_mem hb with ⟨y, hy, hyw, _⟩
        have h1 : ltb a.word b.word = true := by
          have := hgt₁ y hy
          rw [hyw] at this
          exact this
        have h2 : ltb b.word a.word = true := by
          have := hgt₂ x hx
          rw [hxw] at this
          exact this
        rw [ltb_asymm a.word b.word h1] at h2
        cases h2
      have hdocs : a.docs = b.docs := by
        have ha := h a.word
        rw [rowLookup, if_pos rfl, rowLookup, if_pos hab.symm] at ha
        injection ha
      have hhead : a = b := by
        cases a
        cases b
        cases hab
        cases hdocs
        rfl
      subst hhead
      have htail : t₁ = t₂ := by
        refine ih t₂ hs₁' hs₂' fun w => ?_
        by_cases hw : a.word = w
        · subst hw
          rw [rowLookup_none_of_gt fun x hx => ?_,
            rowLookup_none_of_gt fun x hx => ?_]
          · exact hgt₂ x hx
          · exact hgt₁ x hx
        · have := h w
          rw [rowLookup, if_neg hw, rowLookup, if_neg hw] at this
          exact this
      rw [htail]

/-! Interner lemmas. -/

theorem mem_internInsert : ∀ (l : List Word) (w w' : Word),
    w' ∈ internInsert l w ↔ w' = w ∨ w' ∈ l := by
  intro l
  induction l with
  | nil =>
    intro w w'
    simp [internInsert]
  | cons x xs ih =>
    intro w w'
    by_cases hxw : x = w
    · rw [internInsert, if_pos hxw]
      subst hxw
      constructor
      · intro h
        rcases List.mem_cons.1 h with rfl | h
        · exact Or.inl rfl
        · exact Or.inr (List.mem_cons_of_mem x h)
      · intro h
        rcases h with rfl | h
        · exact List.mem_cons_self _ _
        · exact h
    · rw [internInsert, if_neg hxw]
      by_cases hlt : ltb w x = true
      · rw [if_pos hlt]
        constructor
        · intro h
          rcases List.mem_cons.1 h with rfl | h
          · exact Or.inl rfl
          · exact Or.inr h
        · intro h
          rcases h with rfl | h
          · exact List.mem_cons_self _ _
          · exact List.mem_cons_of_mem w h
      · rw [if_neg hlt]
        constructor
        · intro h
          rcases List.mem_cons.1 h with rfl | h
          · exact Or.inr (List.mem_cons_self _ _)
          · rcases (ih w w').1 h with h' | h'
            · exact Or.inl h'
            · exact Or.inr (List.mem_cons_of_mem x h')
        · intro h
          rcases h with hw | h
          · exact List.mem_cons_of_mem x ((ih w w').2 (Or.inl hw))
          · rcases List.mem_cons.1 h with rfl | h'
            · exact List.mem_cons_self _ _
            · exact List.mem_cons_of_mem x ((ih w w').2 (Or.inr h'))

theorem sortedW_cons {a : Word} {l : List Word} (h : sortedW (a :: l) = true) :
    sortedW l = true ∧ ∀ b ∈ l, ltb a b = true := by
  rw [sortedW_iff] at h
  rcases List.pairwise_cons.1 h with ⟨h1, h2⟩
  exact ⟨(sortedW_iff l).2 h2, h1⟩

theorem sorted_internInsert : ∀ (l : List Word) (w : Word),
    sortedW l = true → sortedW (internInsert l w) = true := by
  intro l
  induction l with
  | nil => intro w _; rfl
  | cons x xs ih =>
    intro w hs
    rcases sortedW_cons hs with ⟨hs', hgt⟩
    by_cases hxw : x = w
    · rw [internInsert, if_pos hxw]
      exact hs
    · by_cases hlt : ltb w x = true
      · rw [internInsert, if_neg hxw, if_pos hlt]
        rw [sortedW_iff, List.pairwise_cons]
        refine ⟨?_, (sortedW_iff _).1 hs⟩
        intro b hb
        rcases List.mem_cons.1 hb with rfl | hb
        · exact hlt
        · exact ltb_trans w x b hlt (hgt b hb)
      · rw [internInsert, if_neg hxw, if_neg hlt]
        rw [sortedW_iff, List.pairwise_cons]
        constructor
        · intro b hb
          rcases (mem_internInsert xs w b).1 hb with rfl | hb
          · rcases ltb_total x b hxw with h' | h'
            · exact h'
            · exact absurd h' hlt
          · exact hgt b hb
        · exact (sortedW_iff _).1 (ih w hs')

theorem internRemove_sublist : ∀ (l : List Word) (w : Word),
    List.Sublist (internRemove l w) l := by
  intro l
  induction l with
  | nil => intro w; exact List.Sublist.refl _
  | cons x xs ih =>
    intro w
    rw [internRemove]
    by_cases hxw : x = w
    · rw [if_pos hxw]
      exact List.sublist_cons_of_sublist _ (List.Sublist.refl _)
    · rw [if_neg hxw]
      exact List.Sublist.cons₂ _ (ih w)

theorem sorted_internRemove (l : List Word) (w : Word)
    (hs : sortedW l = true) : sortedW (internRemove l w) = true := by
  rw [sortedW_iff]
  rw [sortedW_iff] at hs
  exact List.Pairwise.sublist (internRemove_sublist l w) hs

theorem mem_internRemove : ∀ (l : List Word) (w w' : Word),
    sortedW l = true → (w' ∈ internRemove l w ↔ w' ∈ l ∧ w' ≠ w) := by
  intro l
  induction l with
  | nil =>
    intro w w' _
    simp [internRemove]
  | cons x xs ih =>
    intro w w' hs
    rcases sortedW_cons hs with ⟨hs', hgt⟩
    rw [internRemove]
    by_cases hxw : x = w
    · rw [if_pos hxw]
      constructor
      · intro h
        refine ⟨List.mem_cons_of_mem x h, ?_⟩
        intro hww
        have hxx := hgt w' h
        rw [hww, ← hxw, ltb_irrefl] at hxx
        cases hxx
      · intro ⟨h1, h2⟩
        rcases List.mem_cons.1 h1 with h0 | h1
        · exact absurd (h0.trans hxw) h2
        · exact h1
    · rw [if_neg hxw]
      constructor
      · intro h
        rcases List.mem_cons.1 h with rfl | h
        · exact ⟨List.mem_cons_self _ _, fun hh => hxw hh⟩
        · rcases (ih w w' hs').1 h with ⟨h1, h2⟩
          exact ⟨List.mem_cons_of_mem x h1, h2⟩
      · intro ⟨h1, h2⟩
        rcases List.mem_cons.1 h1 with rfl | h1
        · exact List.mem_cons_self _ _
        · exact List.mem_cons_of_mem x ((ih w w' hs').2 ⟨h1, h2⟩)

/-- Sorted word lists with the same members are equal. -/
theorem wordExt : ∀ l₁ l₂ : List Word, sortedW l₁ = true → sortedW l₂ = true →
    (∀ w, w ∈ l₁ ↔ w ∈ l₂) → l₁ = l₂ := by
  intro l₁
  induction l₁ with
  | nil =>
    intro l₂ _ _ h
    cases l₂ with
    | nil => rfl
    | cons b l₂ =>
      have := (h b).2 (List.mem_cons_self _ _)
      cases this
  | cons a l₁ ih =>
    intro l₂ hs₁ hs₂ h
    cases l₂ with
    | nil =>
      have := (h a).1 (List.mem_cons_self _ _)
      cases this
    | cons b l₂ =>
      rcases sortedW_cons hs₁ with ⟨hs₁', hgt₁⟩
      rcases sortedW_cons hs₂ with ⟨hs₂', hgt₂⟩
      have hab : a = b := by
        by_contra hab
        have ha := (h a).1 (List.mem_cons_self _ _)
        rcases List.mem_cons.1 ha with h' | h'
        · exact hab h'
        · have hb := (h b).2 (List.mem_cons_self _ _)
          rcases List.mem_cons.1 hb with h'' | h''
          · exact hab h''.symm
          · have h1 := hgt₁ b h''
            have h2 := hgt₂ a h'
            rw [ltb_asymm a b h1] at h2
            cases h2
      subst hab
      have htail : l₁ = l₂ := by
        refine ih l₂ hs₁' hs₂' fun w => ?_
        constructor
        · intro hw
          have := (h w).1 (List.mem_cons_of_mem a hw)
          rcases List.mem_cons.1 this with rfl | h'
          · have := hgt₁ w hw
            rw [ltb_irrefl] at this
            cases this
          · exact h'
        · intro hw
          have := (h w).2 (List.mem_cons_of_mem a hw)
          rcases List.mem_cons.1 this with rfl | h'
          · have := hgt₂ w hw
            rw [ltb_irrefl] at this
            cases this
          · exact h'
      rw [htail]

theorem dedupSort_step : ∀ (ws : List Word) (acc : List Word),
    sortedW acc = true →
    sortedW (ws.foldl internInsert acc) = true ∧
    ∀ w, w ∈ ws.foldl internInsert acc ↔ w ∈ acc ∨ w ∈ ws := by
  intro ws
  induction ws with
  | nil =>
    intro acc hs
    exact ⟨hs, fun w => by simp⟩
  | cons x xs ih =>
    intro acc hs
    rw [List.foldl_cons]
    rcases ih (internInsert acc x) (sorted_internInsert acc x hs) with ⟨h1, h2⟩
    refine ⟨h1, fun w => ?_⟩
    rw [h2 w, mem_internInsert]
    constructor
    · rintro ((rfl | h) | h)
      · exact Or.inr (List.mem_cons_self _ _)
      · exact Or.inl h
      · exact Or.inr (List.mem_cons_of_mem x h)
    · rintro (h | h)
      · exact Or.inl (Or.inr h)
      · rcases List.mem_cons.1 h with rfl | h
        · exact Or.inl (Or.inl rfl)
        · exact Or.inr h

theorem sorted_dedupSort (ws : List Word) : sortedW (dedupSort ws) = true :=
  (dedupSort_step ws [] rfl).1

theorem mem_dedupSort (ws : List Word) (w : Word) :
    w ∈ dedupSort ws ↔ w ∈ ws := by
  rw [dedupSort, (dedupSort_step ws [] rfl).2 w]
  simp

/-! Index-level removal phase. -/

theorem getD_map_lt {α β : Type} (f : α → β) (l : List α) (j : ℕ) (da : α)
    (db : β) (h : j < l.length) : (l.map f).getD j db = f (l.getD j da) := by
  rw [List.getD_eq_getElem?_getD, List.getElem?_map, List.getD_eq_getElem?_getD,
    List.getElem?_eq_getElem h]
  rfl

theorem getD_mem_lt {α : Type} (l : List α) (j : ℕ) (da : α)
    (h : j < l.length) : l.getD j da ∈ l := by
  rw [List.getD_eq_getElem?_getD, List.getElem?_eq_getElem h]
  exact List.getElem_mem h

theorem allCongrMem {α : Type} (l : List α) (p q : α → Bool)
    (h : ∀ x ∈ l, p x = q x) : l.all p = l.all q := by
  induction l with
  | nil => rfl
  | cons a l ih =>
    rw [List.all_cons, List.all_cons, h a (List.mem_cons_self a l),
      ih fun x hx => h x (List.mem_cons_of_mem a hx)]

theorem allMap {α β : Type} (f : α → β) (l : List α) (p : β → Bool) :
    (l.map f).all p = l.all fun x => p (f x) := by
  induction l with
  | nil => rfl
  | cons a l ih => rw [List.map_cons, List.all_cons, List.all_cons, ih]

theorem removeWordDocAll_spec (tables : List Table) (intern : List Word)
    (w : Word) (d : ℕ)
    (hts : ∀ t ∈ tables, sortedT t = true) (hin : sortedW intern = true) :
    (removeWordDocAll tables intern w d).1 =
      tables.map (fun t => (tableRemove t w d).1) ∧
    sortedW (removeWordDocAll tables intern w d).2 = true ∧
    ∀ w', w' ∈ (removeWordDocAll tables intern w d).2 ↔
      (w' ∈ intern ∧ ¬(w' = w ∧ dropCond tables d w = true)) := by
  have hmap : (removeWordDocAll tables intern w d).1 =
      tables.map fun t => (tableRemove t w d).1 := by
    rw [removeWordDocAll, List.map_map]
    rfl
  have hflag : ((tables.map fun t => tableRemove t w d).all fun p => p.2) =
      dropCond tables d w := by
    rw [allMap, dropCond]
    refine allCongrMem tables _ _ fun t ht => ?_
    exact flag_tableRemove t w d (hts t ht)
  have hint : (removeWordDocAll tables intern w d).2 =
      (if dropCond tables d w = true then internRemove intern w else intern) := by
    rw [removeWordDocAll]
    by_cases hdc : dropCond tables d w = true
    · rw [if_pos hdc]
      rw [← hflag] at hdc
      simp only [hdc, if_true]
    · rw [if_neg hdc]
      rw [← hflag] at hdc
      simp only [Bool.not_eq_true] at hdc
      simp only [hdc, Bool.false_eq_true, if_false]
  refine ⟨hmap, ?_, ?_⟩
  · rw [hint]
    by_cases hdc : dropCond tables d w = true
    · rw [if_pos hdc]
      exact sorted_internRemove intern w hin
    · rw [if_neg hdc]
      exact hin
  · intro w'
    rw [hint]
    by_cases hdc : dropCond tables d w = true
    · rw [if_pos hdc, mem_internRemove intern w w' hin]
      constructor
      · intro ⟨h1, h2⟩
        exact ⟨h1, fun hc => h2 hc.1⟩
      · intro ⟨h1, h2⟩
        exact ⟨h1, fun hc => h2 ⟨hc, hdc⟩⟩
    · rw [if_neg hdc]
      constructor
      · intro h1
        exact ⟨h1, fun hc => hdc hc.2⟩
      · intro ⟨h1, _⟩
        exact h1

theorem dropCond_map_ne (tables : List Table) (w w' : Word) (d : ℕ)
    (hts : ∀ t ∈ tables, sortedT t = true) (hne : w' ≠ w) :
    dropCond (tables.map fun t => (tableRemove t w d).1) d w' =
      dropCond tables d w' := by
  rw [dropCond, allMap, dropCond]
  refine allCongrMem tables _ _ fun t ht => ?_
  show remFlag d (rowLookup (tableRemove t w d).1 w') = remFlag d (rowLookup t w')
  rw [lookup_tableRemove t w d (hts t ht) w', if_neg hne]

theorem removeWordsDoc_spec :
    ∀ (ws : List Word) (tables : List Table) (intern : List Word) (d : ℕ),
      (∀ t ∈ tables, sortedT t = true) → sortedW ws = true →
      sortedW intern = true →
      (removeWordsDoc tables intern ws d).1.length = tables.length ∧
      (∀ j, j < tables.length →
        sortedT ((removeWordsDoc tables intern ws d).1.getD j []) = true ∧
        ∀ w', rowLookup ((removeWordsDoc tables intern ws d).1.getD j []) w' =
          (if w' ∈ ws then remT d (rowLookup (tables.getD j []) w')
           else rowLookup (tables.getD j []) w')) ∧
      sortedW (removeWordsDoc tables intern ws d).2 = true ∧
      (∀ w', w' ∈ (removeWordsDoc tables intern ws d).2 ↔
        (w' ∈ intern ∧ ¬(w' ∈ ws ∧ dropCond tables d w' = true))) := by
  intro ws
  induction ws with
  | nil =>
    intro tables intern d hts _ hin
    refine ⟨rfl, fun j hj => ⟨hts _ (getD_mem_lt tables j [] hj), fun w' => ?_⟩,
      hin, fun w' => ?_⟩
    · rw [if_neg (by simp)]
      rfl
    · show w' ∈ intern ↔ _
      simp
  | cons w₀ rest ih =>
    intro tables intern d hts hws hin
    rcases sortedW_cons hws with ⟨hrest, hgt₀⟩
    have hw₀rest : w₀ ∉ rest := by
      intro hmem
      have := hgt₀ w₀ hmem
      rw [ltb_irrefl] at this
      cases this
    rcases removeWordDocAll_spec tables intern w₀ d hts hin with ⟨hT1, hI1s, hI1⟩
    have hstep : removeWordsDoc tables intern (w₀ :: rest) d =
        removeWordsDoc (removeWordDocAll tables intern w₀ d).1
          (removeWordDocAll tables intern w₀ d).2 rest d := by
      rw [removeWordsDoc, List.foldl_cons]
      rfl
    have hts1 : ∀ t ∈ (removeWordDocAll tables intern w₀ d).1,
        sortedT t = true := by
      rw [hT1]
      intro t ht
      rcases List.mem_map.1 ht with ⟨t₀, ht₀, rfl⟩
      exact sorted_tableRemove t₀ w₀ d (hts t₀ ht₀)
    rcases ih (removeWordDocAll tables intern w₀ d).1
        (removeWordDocAll tables intern w₀ d).2 d hts1 hrest hI1s with
      ⟨ihlen, ihtab, ihis, ihim⟩
    have hlen1 : (removeWordDocAll tables intern w₀ d).1.length =
        tables.length := by
      rw [hT1, List.length_map]
    refine ⟨?_, ?_, ?_, ?_⟩
    · rw [hstep, ihlen, hlen1]
    · intro j hj
      have hj1 : j < (removeWordDocAll tables intern w₀ d).1.length := by
        rw [hlen1]; exact hj
      rcases ihtab j hj1 with ⟨ihsj, ihlj⟩
      have hgetD : (removeWordDocAll tables intern w₀ d).1.getD j [] =
          (tableRemove (tables.getD j []) w₀ d).1 := by
        rw [hT1]
        exact getD_map_lt _ tables j [] [] hj
      refine ⟨by rw [hstep]; exact ihsj, fun w' => ?_⟩
      rw [hstep, ihlj w', hgetD]
      have hsj := hts _ (getD_mem_lt tables j [] hj)
      by_cases hm : w' ∈ rest
      · have hne : w' ≠ w₀ := fun h => hw₀rest (h ▸ hm)
        rw [if_pos hm, if_pos (List.mem_cons_of_mem w₀ hm),
          lookup_tableRemove _ w₀ d hsj w', if_neg hne]
      · by_cases he : w' = w₀
        · subst he
          rw [if_neg hm, if_pos (List.mem_cons_self _ _),
            lookup_tableRemove _ w' d hsj w', if_pos rfl]
        · rw [if_neg hm, if_neg (by
            intro hmem
            rcases List.mem_cons.1 hmem with h | h
            · exact he h
            · exact hm h),
            lookup_tableRemove _ w₀ d hsj w', if_neg he]
    · rw [hstep]
      exact ihis
    · intro w'
      rw [hstep, ihim w', hI1 w']
      by_cases he : w' = w₀
      · subst he
        constructor
        · rintro ⟨⟨ha, hb⟩, -⟩
          exact ⟨ha, fun hc => hb ⟨rfl, hc.2⟩⟩
        · rintro ⟨ha, hb⟩
          exact ⟨⟨ha, fun hc => hb ⟨List.mem_cons_self _ _, hc.2⟩⟩,
            fun hc => hw₀rest hc.1⟩
      · have hdc : dropCond (removeWordDocAll tables intern w₀ d).1 d w' =
            dropCond tables d w' := by
          rw [hT1]
          exact dropCond_map_ne tables w₀ w' d hts he
        rw [hdc]
        constructor
        · intro ⟨⟨h1, h2⟩, h3⟩
          refine ⟨h1, fun hc => ?_⟩
          rcases List.mem_cons.1 hc.1 with h | h
          · exact he h
          · exact h3 ⟨h, hc.2⟩
        · intro ⟨h1, h2⟩
          refine ⟨⟨h1, fun hc => he hc.1⟩, fun hc => ?_⟩
          exact h2 ⟨List.mem_cons_of_mem w₀ hc.1, hc.2⟩

/-! Index-level insertion phase. -/

theorem getD_set_eq {α : Type} (l : List α) (i : ℕ) (a da : α)
    (h : i < l.length) : (l.set i a).getD i da = a := by
  rw [List.getD_eq_getElem?_getD, List.getElem?_set_self h]
  rfl

theorem getD_set_ne {α : Type} (l : List α) (i j : ℕ) (a da : α)
    (h : i ≠ j) : (l.set i a).getD j da = l.getD j da := by
  rw [List.getD_eq_getElem?_getD, List.getElem?_set_ne h,
    List.getD_eq_getElem?_getD]

theorem insertAllIdxs_spec :
    ∀ (idxs : List ℕ) (ts : List Table) (w : Word) (d : ℕ),
      List.Pairwise (· ≠ ·) idxs → (∀ j ∈ idxs, j < ts.length) →
      (insertAllIdxs ts idxs w d).length = ts.length ∧
      (∀ j, j ∉ idxs → (insertAllIdxs ts idxs w d).getD j [] = ts.getD j []) ∧
      (∀ j ∈ idxs, (insertAllIdxs ts idxs w d).getD j [] =
        (tableInsert (ts.getD j []) w d).1) := by
  intro idxs
  induction idxs with
  | nil => exact fun ts w d _ _ => ⟨rfl, fun j _ => rfl, fun j hj => absurd hj (by simp)⟩
  | cons j₀ rest ih =>
    intro ts w d hdist hrange
    rcases List.pairwise_cons.1 hdist with ⟨hj₀, hdist'⟩
    have hj₀lt : j₀ < ts.length := hrange j₀ (List.mem_cons_self _ _)
    have hstep : insertAllIdxs ts (j₀ :: rest) w d =
        insertAllIdxs (ts.set j₀ (tableInsert (ts.getD j₀ []) w d).1) rest w d := by
      rw [insertAllIdxs, List.foldl_cons]
      rfl
    have hrange' : ∀ j ∈ rest, j < (ts.set j₀ (tableInsert (ts.getD j₀ []) w d).1).length := by
      intro j hj
      rw [List.length_set]
      exact hrange j (List.mem_cons_of_mem j₀ hj)
    rcases ih (ts.set j₀ (tableInsert (ts.getD j₀ []) w d).1) w d hdist' hrange'
      with ⟨ihl, ihout, ihin⟩
    refine ⟨?_, ?_, ?_⟩
    · rw [hstep, ihl, List.length_set]
    · intro j hj
      have hne : j ∉ rest := fun h => hj (List.mem_cons_of_mem j₀ h)
      have hne₀ : j₀ ≠ j := fun h => hj (h ▸ List.mem_cons_self _ _)
      rw [hstep, ihout j hne, getD_set_ne _ _ _ _ _ hne₀]
    · intro j hj
      rcases List.mem_cons.1 hj with rfl | hj
      · rw [hstep, ihout j (fun h => hj₀ j h rfl), getD_set_eq _ _ _ _ hj₀lt]
      · have hne₀ : j₀ ≠ j := hj₀ j hj
        rw [hstep, ihin j hj, getD_set_ne _ _ _ _ _ hne₀]

theorem insT_insT (d : ℕ) (o : Option (Finset ℕ)) :
    insT d (some (insT d o)) = insT d o := by
  cases o with
  | none =>
    show insert d {d} = ({d} : Finset ℕ)
    rw [Finset.insert_eq_self]
    exact Finset.mem_singleton_self d
  | some ds =>
    show insert d (insert d ds) = insert d ds
    rw [Finset.insert_idem]

theorem insertWordSel_spec (tables : List Table) (intern : List Word)
    (j₀ : ℕ) (srest : List ℕ) (w : Word) (d : ℕ)
    (hdist : List.Pairwise (· ≠ ·) (j₀ :: srest))
    (hrange : ∀ j ∈ j₀ :: srest, j < tables.length)
    (hsort : sortedT (tables.getD j₀ []) = true) :
    (insertWordSel tables intern (j₀ :: srest) w d).1.length = tables.length ∧
    (∀ j, j ∉ j₀ :: srest →
      (insertWordSel tables intern (j₀ :: srest) w d).1.getD j [] =
        tables.getD j []) ∧
    (∀ j ∈ j₀ :: srest,
      (insertWordSel tables intern (j₀ :: srest) w d).1.getD j [] =
        (tableInsert (tables.getD j []) w d).1) ∧
    (insertWordSel tables intern (j₀ :: srest) w d).2 =
      (if rowLookup (tables.getD j₀ []) w = none then internInsert intern w
       else intern) := by
  rcases List.pairwise_cons.1 hdist with ⟨hj₀, hdist'⟩
  have hj₀lt : j₀ < tables.length := hrange j₀ (List.mem_cons_self _ _)
  have hrange' : ∀ j ∈ srest,
      j < (tables.set j₀ (tableInsert (tables.getD j₀ []) w d).1).length := by
    intro j hj
    rw [List.length_set]
    exact hrange j (List.mem_cons_of_mem j₀ hj)
  rcases insertAllIdxs_spec srest
      (tables.set j₀ (tableInsert (tables.getD j₀ []) w d).1) w d hdist' hrange'
    with ⟨hl, hout, hin⟩
  have hS : (insertWordSel tables intern (j₀ :: srest) w d).1 =
      insertAllIdxs (tables.set j₀ (tableInsert (tables.getD j₀ []) w d).1)
        srest w d := rfl
  refine ⟨?_, ?_, ?_, ?_⟩
  · rw [hS, hl, List.length_set]
  · intro j hj
    have hne : j ∉ srest := fun h => hj (List.mem_cons_of_mem j₀ h)
    have hne₀ : j₀ ≠ j := fun h => hj (h ▸ List.mem_cons_self _ _)
    rw [hS, hout j hne, getD_set_ne _ _ _ _ _ hne₀]
  · intro j hj
    rcases List.mem_cons.1 hj with rfl | hj
    · rw [hS, hout j (fun h => hj₀ j h rfl), getD_set_eq _ _ _ _ hj₀lt]
    · have hne₀ : j₀ ≠ j := hj₀ j hj
      rw [hS, hin j hj, getD_set_ne _ _ _ _ _ hne₀]
  · show (if (tableInsert (tables.getD j₀ []) w d).2 = true
        then internInsert intern w else intern) = _
    rw [flag_tableInsert _ w d hsort]
    by_cases hn : rowLookup (tables.getD j₀ []) w = none
    · rw [if_pos hn, if_pos (by rw [decide_eq_true_eq]; exact hn)]
    · rw [if_neg hn, if_neg (by rw [decide_eq_true_eq]; exact hn)]

theorem foldl_wl_shift (j₀ : ℕ) (srest : List ℕ) (dir : Direction) (d : ℕ) :
    ∀ (tokens : List Word) (T : List Table) (I wl : List Word),
      tokens.foldl (insertTokStep (j₀ :: srest) dir d) (T, I, wl) =
        ((tokens.foldl (insertTokStep (j₀ :: srest) dir d) (T, I, [])).1,
         (tokens.foldl (insertTokStep (j₀ :: srest) dir d) (T, I, [])).2.1,
         wl ++ (tokens.foldl (insertTokStep (j₀ :: srest) dir d) (T, I, [])).2.2) := by
  intro tokens
  induction tokens with
  | nil =>
    intro T I wl
    simp
  | cons tok more ih =>
    intro T I wl
    rw [List.foldl_cons, List.foldl_cons]
    have hstep : ∀ wl₀ : List Word,
        insertTokStep (j₀ :: srest) dir d (T, I, wl₀) tok =
          ((insertWordSel T I (j₀ :: srest) (dirWord dir tok) d).1,
           (insertWordSel T I (j₀ :: srest) (dirWord dir tok) d).2,
           wl₀ ++ [dirWord dir tok]) := fun _ => rfl
    rw [hstep wl, hstep []]
    rw [ih _ _ (wl ++ [dirWord dir tok]), ih _ _ ([] ++ [dirWord dir tok])]
    simp

theorem insertDocWordList_spec :
    ∀ (tokens : List Word) (T0 : List Table) (I0 : List Word)
      (j₀ : ℕ) (srest : List ℕ) (dir : Direction) (d : ℕ),
      List.Pairwise (· ≠ ·) (j₀ :: srest) →
      (∀ j ∈ j₀ :: srest, j < T0.length) →
      (∀ j ∈ j₀ :: srest, sortedT (T0.getD j []) = true) →
      sortedW I0 = true →
      (insertDocWordList T0 I0 (j₀ :: srest) tokens dir d).2.2 =
        tokens.map (dirWord dir) ∧
      (insertDocWordList T0 I0 (j₀ :: srest) tokens dir d).1.length =
        T0.length ∧
      (∀ j, j ∉ j₀ :: srest →
        (insertDocWordList T0 I0 (j₀ :: srest) tokens dir d).1.getD j [] =
          T0.getD j []) ∧
      (∀ j ∈ j₀ :: srest,
        sortedT ((insertDocWordList T0 I0 (j₀ :: srest) tokens dir d).1.getD
          j []) = true ∧
        ∀ w', rowLookup ((insertDocWordList T0 I0 (j₀ :: srest) tokens
            dir d).1.getD j []) w' =
          (if w' ∈ tokens.map (dirWord dir)
           then some (insT d (rowLookup (T0.getD j []) w'))
           else rowLookup (T0.getD j []) w')) ∧
      sortedW (insertDocWordList T0 I0 (j₀ :: srest) tokens dir d).2.1 =
        true ∧
      (∀ w', w' ∈ (insertDocWordList T0 I0 (j₀ :: srest) tokens dir d).2.1 ↔
        (w' ∈ I0 ∨ (w' ∈ tokens.map (dirWord dir) ∧
          rowLookup (T0.getD j₀ []) w' = none))) := by
  intro tokens
  induction tokens with
  | nil =>
    intro T0 I0 j₀ srest dir d _ _ hsort hin
    refine ⟨rfl, rfl, fun j _ => rfl,
      fun j hj => ⟨hsort j hj, fun w' => ?_⟩, hin, fun w' => ?_⟩
    · show rowLookup (T0.getD j []) w' = _
      rw [if_neg (by simp)]
    · show w' ∈ I0 ↔ _
      simp
  | cons tok more ih =>
    intro T0 I0 j₀ srest dir d hdist hrange hsort hin
    have hj₀mem : j₀ ∈ j₀ :: srest := List.mem_cons_self _ _
    rcases insertWordSel_spec T0 I0 j₀ srest (dirWord dir tok) d hdist hrange
      (hsort j₀ hj₀mem) with ⟨hsl, hsout, hsin, hsint⟩
    have hunf : insertDocWordList T0 I0 (j₀ :: srest) (tok :: more) dir d =
        ((insertDocWordList
            (insertWordSel T0 I0 (j₀ :: srest) (dirWord dir tok) d).1
            (insertWordSel T0 I0 (j₀ :: srest) (dirWord dir tok) d).2
            (j₀ :: srest) more dir d).1,
         (insertDocWordList
            (insertWordSel T0 I0 (j₀ :: srest) (dirWord dir tok) d).1
            (insertWordSel T0 I0 (j₀ :: srest) (dirWord dir tok) d).2
            (j₀ :: srest) more dir d).2.1,
         [dirWord dir tok] ++
           (insertDocWordList
            (insertWordSel T0 I0 (j₀ :: srest) (dirWord dir tok) d).1
            (insertWordSel T0 I0 (j₀ :: srest) (dirWord dir tok) d).2
            (j₀ :: srest) more dir d).2.2) := by
      rw [insertDocWordList, List.foldl_cons]
      rw [show insertTokStep (j₀ :: srest) dir d (T0, I0, []) tok =
          ((insertWordSel T0 I0 (j₀ :: srest) (dirWord dir tok) d).1,
           (insertWordSel T0 I0 (j₀ :: srest) (dirWord dir tok) d).2,
           [dirWord dir tok]) from rfl]
      rw [foldl_wl_shift]
      rfl
    have hrange1 : ∀ j ∈ j₀ :: srest,
        j < (insertWordSel T0 I0 (j₀ :: srest) (dirWord dir tok) d).1.length := by
      intro j hj
      rw [hsl]
      exact hrange j hj
    have hsort1 : ∀ j ∈ j₀ :: srest,
        sortedT ((insertWordSel T0 I0 (j₀ :: srest) (dirWord dir tok)
          d).1.getD j []) = true := by
      intro j hj
      rw [hsin j hj]
      exact sorted_tableInsert _ _ d (hsort j hj)
    have hin1 : sortedW
        (insertWordSel T0 I0 (j₀ :: srest) (dirWord dir tok) d).2 = true := by
      rw [hsint]
      by_cases hn : rowLookup (T0.getD j₀ []) (dirWord dir tok) = none
      · rw [if_pos hn]
        exact sorted_internInsert I0 _ hin
      · rw [if_neg hn]
        exact hin
    rcases ih (insertWordSel T0 I0 (j₀ :: srest) (dirWord dir tok) d).1
        (insertWordSel T0 I0 (j₀ :: srest) (dirWord dir tok) d).2
        j₀ srest dir d hdist hrange1 hsort1 hin1 with
      ⟨ihwl, ihlen, ihout, ihtab, ihis, ihim⟩
    refine ⟨?_, ?_, ?_, ?_, ?_, ?_⟩
    · rw [hunf]
      show [dirWord dir tok] ++ _ = _
      rw [ihwl, List.map_cons]
      rfl
    · rw [hunf]
      show (insertDocWordList _ _ _ more dir d).1.length = _
      rw [ihlen, hsl]
    · intro j hj
      rw [hunf]
      show (insertDocWordList _ _ _ more dir d).1.getD j [] = _
      rw [ihout j hj, hsout j hj]
    · intro j hj
      refine ⟨?_, fun w' => ?_⟩
      · rw [hunf]
        exact (ihtab j hj).1
      · rw [hunf]
        show rowLookup ((insertDocWordList _ _ _ more dir d).1.getD j []) w' = _
        rw [(ihtab j hj).2 w', hsin j hj,
          lookup_tableInsert _ (dirWord dir tok) d (hsort j hj) w']
        simp only [List.map_cons, List.mem_cons]
        by_cases he : w' = dirWord dir tok
        · by_cases hm : w' ∈ more.map (dirWord dir)
          · rw [if_pos hm, if_pos he, if_pos (Or.inl he), he, insT_insT]
          · rw [if_neg hm, if_pos he, if_pos (Or.inl he), he]
        · by_cases hm : w' ∈ more.map (dirWord dir)
          · rw [if_pos hm, if_neg he, if_pos (Or.inr hm)]
          · rw [if_neg hm, if_neg he,
              if_neg (fun hc => hc.elim he hm)]
    · rw [hunf]
      exact ihis
    · intro w'
      rw [hunf]
      show w' ∈ (insertDocWordList _ _ _ more dir d).2.1 ↔ _
      rw [ihim w', hsint]
      have hj₀T1 : (insertWordSel T0 I0 (j₀ :: srest) (dirWord dir tok)
          d).1.getD j₀ [] = (tableInsert (T0.getD j₀ []) (dirWord dir tok) d).1 :=
        hsin j₀ hj₀mem
      rw [hj₀T1, lookup_tableInsert _ (dirWord dir tok) d (hsort j₀ hj₀mem) w']
      by_cases he : w' = dirWord dir tok
      · rw [if_pos he]
        have hnone : ¬(some (insT d (rowLookup (T0.getD j₀ [])
            (dirWord dir tok))) = none) := by simp
        by_cases hn : rowLookup (T0.getD j₀ []) (dirWord dir tok) = none
        · rw [if_pos hn, List.map_cons]
          constructor
          · intro h
            rcases h with h | h
            · rcases (mem_internInsert I0 (dirWord dir tok) w').1 h with h' | h'
              · exact Or.inr ⟨by rw [List.mem_cons]; exact Or.inl he, by rw [he]; exact hn⟩
              · exact Or.inl h'
            · exact absurd h.2 hnone
          · intro h
            rcases h with h | h
            · exact Or.inl ((mem_internInsert I0 (dirWord dir tok) w').2 (Or.inr h))
            · exact Or.inl ((mem_internInsert I0 (dirWord dir tok) w').2 (Or.inl he))
        · rw [if_neg hn, List.map_cons]
          constructor
          · intro h
            rcases h with h | h
            · exact Or.inl h
            · exact absurd h.2 hnone
          · intro h
            rcases h with h | h
            · exact Or.inl h
            · rw [he] at h
              exact absurd h.2 hn
      · have hlk : (if w' = dirWord dir tok
            then some (insT d (rowLookup (T0.getD j₀ []) (dirWord dir tok)))
            else rowLookup (T0.getD j₀ []) w') =
            rowLookup (T0.getD j₀ []) w' := by rw [if_neg he]
        rw [hlk]
        by_cases hn : rowLookup (T0.getD j₀ []) (dirWord dir tok) = none
        · rw [if_pos hn, List.map_cons]
          constructor
          · intro h
            rcases h with h | h
            · rcases (mem_internInsert I0 (dirWord dir tok) w').1 h with h' | h'
              · exact absurd h' he
              · exact Or.inl h'
            · exact Or.inr ⟨List.mem_cons_of_mem _ h.1, h.2⟩
          · intro h
            rcases h with h | h
            · exact Or.inl ((mem_internInsert I0 (dirWord dir tok) w').2 (Or.inr h))
            · rcases List.mem_cons.1 h.1 with h' | h'
              · exact absurd h' he
              · exact Or.inr ⟨h', h.2⟩
        · rw [if_neg hn, List.map_cons]
          constructor
          · intro h
            rcases h with h | h
            · exact Or.inl h
            · exact Or.inr ⟨List.mem_cons_of_mem _ h.1, h.2⟩
          · intro h
            rcases h with h | h
            · exact Or.inl h
            · rcases List.mem_cons.1 h.1 with h' | h'
              · exact absurd h' he
              · exact Or.inr ⟨h', h.2⟩

/-! Helpers for assembling the remove/insert round trip. -/

theorem getD_of_get?_none {α : Type} {l : List α} {i : ℕ} {dflt : α}
    (h : l.get? i = none) : l.getD i dflt = dflt := by
  rw [List.getD_eq_getElem?_getD, ← List.get?_eq_getElem?, h]
  rfl

theorem getD_of_get?_some {α : Type} {l : List α} {i : ℕ} {dflt : α} {x : α}
    (h : l.get? i = some x) : l.getD i dflt = x := by
  rw [List.getD_eq_getElem?_getD, ← List.get?_eq_getElem?, h]
  rfl

theorem get?_some_lt {α : Type} {l : List α} {i : ℕ} {x : α}
    (h : l.get? i = some x) : i < l.length :=
  List.get?_eq_some.1 h |>.fst

theorem flatten_single :
    ∀ (l : List (List Word)) (ai : ℕ),
      (∀ j, j ≠ ai → l.getD j [] = []) → l.flatten = l.getD ai [] := by
  intro l
  induction l with
  | nil => intro ai _; cases ai <;> rfl
  | cons x xs ih =>
    intro ai h
    cases ai with
    | zero =>
      have hx : ∀ j, j ≠ 0 → (x :: xs).getD j [] = [] := h
      have hxs : xs.flatten = [] := by
        have : ∀ y ∈ xs, y = [] := by
          intro y hy
          rcases List.mem_iff_getElem.1 hy with ⟨j, hj, rfl⟩
          have := hx (j + 1) (by omega)
          rw [List.getD_eq_getElem?_getD, List.getElem?_cons_succ,
            List.getElem?_eq_getElem hj] at this
          exact this
        exact List.flatten_eq_nil_iff.2 this
      show x ++ xs.flatten = (x :: xs).getD 0 []
      rw [hxs, List.append_nil]
      rfl
    | succ k =>
      have hx : x = [] := by
        have := h 0 (by omega)
        exact this
      have hxs : xs.flatten = xs.getD k [] := by
        refine ih k fun j hj => ?_
        have := h (j + 1) (by omega)
        rw [List.getD_eq_getElem?_getD, List.getElem?_cons_succ,
          ← List.getD_eq_getElem?_getD] at this
        exact this
      show x ++ xs.flatten = (x :: xs).getD (k + 1) []
      rw [hx, List.nil_append, hxs]
      conv_rhs => rw [List.getD_eq_getElem?_getD, List.getElem?_cons_succ,
        ← List.getD_eq_getElem?_getD]

theorem selIdxs_distinct (culture : Option ℕ) (n : ℕ) :
    List.Pairwise (· ≠ ·) (selIdxs culture n) := by
  cases culture with
  | none =>
    refine (List.pairwise_lt_range n).imp ?_
    intro a b h
    omega
  | some c =>
    rw [selIdxs]
    by_cases hc : c < n
    · rw [if_pos hc]
      exact List.pairwise_singleton _ _
    · rw [if_neg hc]
      exact List.Pairwise.nil

theorem selIdxs_lt (culture : Option ℕ) (n : ℕ) :
    ∀ j ∈ selIdxs culture n, j < n := by
  cases culture with
  | none => intro j hj; exact List.mem_range.1 hj
  | some c =>
    intro j hj
    rw [selIdxs] at hj
    by_cases hc : c < n
    · rw [if_pos hc] at hj
      rcases List.mem_singleton.1 hj with rfl
      exact hc
    · rw [if_neg hc] at hj
      cases hj

theorem listEqOfGetD {α : Type} (l₁ l₂ : List α) (dflt : α)
    (hl : l₁.length = l₂.length)
    (h : ∀ j, j < l₁.length → l₁.getD j dflt = l₂.getD j dflt) : l₁ = l₂ := by
  refine List.ext_getElem hl fun i h₁ h₂ => ?_
  have := h i h₁
  rw [List.getD_eq_getElem?_getD, List.getElem?_eq_getElem h₁,
    List.getD_eq_getElem?_getD, List.getElem?_eq_getElem h₂] at this
  exact this

theorem singleton_of_erase_empty {ds : Finset ℕ} {d : ℕ} (hmem : d ∈ ds)
    (h : ds.erase d = ∅) : ds = {d} := by
  ext x
  rw [Finset.mem_singleton]
  constructor
  · intro hx
    by_contra hxd
    have : x ∈ ds.erase d := Finset.mem_erase.2 ⟨hxd, hx⟩
    rw [h] at this
    cases this
  · intro hx
    rw [hx]
    exact hmem

theorem getD_replicate {α : Type} (n j : ℕ) (a dflt : α) (h : j < n) :
    (List.replicate n a).getD j dflt = a := by
  rw [List.getD_eq_getElem?_getD,
    List.getElem?_eq_getElem (by rw [List.length_replicate]; exact h)]
  rw [List.getElem_replicate]
  rfl

/-- Removing a document's words and re-inserting the same word list restores
the word tables and the interner exactly, provided the state was
consistent: the words were indexed with bit `d` in every selected table,
absent (for `d`) from every other table, and present in the interner. -/
theorem phase_roundTrip (tables : List Table) (intern : List Word)
    (old tokens : List Word) (dir : Direction) (d : ℕ) (j₀ : ℕ)
    (srest : List ℕ)
    (hdist : List.Pairwise (· ≠ ·) (j₀ :: srest))
    (hrange : ∀ j ∈ j₀ :: srest, j < tables.length)
    (h1 : ∀ t ∈ tables, sortedT t = true)
    (h2 : ∀ t ∈ tables, ∀ r ∈ t, r.docs ≠ ∅)
    (h3 : sortedW intern = true)
    (hold : old = tokens.map (dirWord dir))
    (h7 : ∀ w ∈ old, w ∈ intern)
    (h8 : ∀ w ∈ old, ∀ j ∈ j₀ :: srest,
      ∃ ds, rowLookup (tables.getD j []) w = some ds ∧ d ∈ ds)
    (h9 : ∀ w ∈ old, ∀ j, j < tables.length → j ∉ j₀ :: srest →
      ∀ ds, rowLookup (tables.getD j []) w = some ds → d ∉ ds) :
    (insertDocWordList (removeWordsDoc tables intern (dedupSort old) d).1
      (removeWordsDoc tables intern (dedupSort old) d).2 (j₀ :: srest)
      tokens dir d).1 = tables ∧
    (insertDocWordList (removeWordsDoc tables intern (dedupSort old) d).1
      (removeWordsDoc tables intern (dedupSort old) d).2 (j₀ :: srest)
      tokens dir d).2.1 = intern ∧
    (insertDocWordList (removeWordsDoc tables intern (dedupSort old) d).1
      (removeWordsDoc tables intern (dedupSort old) d).2 (j₀ :: srest)
      tokens dir d).2.2 = old := by
  have hwss : sortedW (dedupSort old) = true := sorted_dedupSort old
  rcases removeWordsDoc_spec (dedupSort old) tables intern d h1 hwss h3 with
    ⟨rlen, rtab, ris, rim⟩
  have hrange1 : ∀ j ∈ j₀ :: srest,
      j < (removeWordsDoc tables intern (dedupSort old) d).1.length := by
    intro j hj
    rw [rlen]
    exact hrange j hj
  have hsort1 : ∀ j ∈ j₀ :: srest,
      sortedT ((removeWordsDoc tables intern (dedupSort old) d).1.getD j []) =
        true := by
    intro j hj
    exact (rtab j (hrange j hj)).1
  rcases insertDocWordList_spec tokens
      (removeWordsDoc tables intern (dedupSort old) d).1
      (removeWordsDoc tables intern (dedupSort old) d).2 j₀ srest dir d
      hdist hrange1 hsort1 ris with ⟨iwl, ilen, iout, itab, iis, iim⟩
  have htokold : tokens.map (dirWord dir) = old := hold.symm
  refine ⟨?_, ?_, ?_⟩
  · -- word tables are restored
    refine listEqOfGetD _ _ [] (by rw [ilen, rlen]) fun j hjlen => ?_
    rw [ilen, rlen] at hjlen
    by_cases hjsel : j ∈ j₀ :: srest
    · refine tableExt _ _ ((itab j hjsel).1)
        (h1 _ (getD_mem_lt tables j [] hjlen)) fun w' => ?_
      rw [(itab j hjsel).2 w', htokold, (rtab j hjlen).2 w']
      by_cases hw : w' ∈ old
      · rcases h8 w' hw j hjsel with ⟨ds, hds, hdm⟩
        rw [if_pos hw, if_pos ((mem_dedupSort old w').2 hw), hds]
        have hr : remT d (some ds) =
            if ds.erase d = ∅ then none else some (ds.erase d) := rfl
        rw [hr]
        by_cases he : ds.erase d = ∅
        · rw [if_pos he]
          show some (insT d none) = some ds
          rw [singleton_of_erase_empty hdm he]
          rfl
        · rw [if_neg he]
          show some (insert d (ds.erase d)) = some ds
          rw [Finset.insert_erase hdm]
      · rw [if_neg hw, if_neg (fun hc => hw ((mem_dedupSort old w').1 hc))]
    · rw [iout j hjsel]
      refine tableExt _ _ ((rtab j hjlen).1)
        (h1 _ (getD_mem_lt tables j [] hjlen)) fun w' => ?_
      rw [(rtab j hjlen).2 w']
      by_cases hw : w' ∈ dedupSort old
      · have hwo : w' ∈ old := (mem_dedupSort old w').1 hw
        rw [if_pos hw]
        cases horig : rowLookup (tables.getD j []) w' with
        | none => rfl
        | some ds =>
          have hdnot : d ∉ ds := h9 w' hwo j hjlen hjsel ds horig
          have hne : ds ≠ ∅ := by
            rcases rowLookup_some_mem horig with ⟨r, hr, _, hrd⟩
            rw [← hrd]
            exact h2 _ (getD_mem_lt tables j [] hjlen) r hr
          have hr : remT d (some ds) =
              if ds.erase d = ∅ then none else some (ds.erase d) := rfl
          rw [hr, Finset.erase_eq_of_not_mem hdnot, if_neg hne]
      · rw [if_neg hw]
  · -- the interner is restored
    refine wordExt _ _ iis h3 fun w' => ?_
    rw [iim w', rim w', htokold]
    constructor
    · intro h
      rcases h with ⟨h', _⟩ | ⟨hmo, _⟩
      · exact h'
      · exact h7 w' hmo
    · intro hmem
      by_cases hc : w' ∈ dedupSort old ∧ dropCond tables d w' = true
      · have hwo : w' ∈ old := (mem_dedupSort old w').1 hc.1
        refine Or.inr ⟨hwo, ?_⟩
        have hj₀lt : j₀ < tables.length := hrange j₀ (List.mem_cons_self _ _)
        rw [(rtab j₀ hj₀lt).2 w', if_pos hc.1]
        have hflag : remFlag d (rowLookup (tables.getD j₀ []) w') = true := by
          have := List.all_eq_true.1 hc.2 (tables.getD j₀ [])
            (getD_mem_lt tables j₀ [] hj₀lt)
          exact this
        cases horig : rowLookup (tables.getD j₀ []) w' with
        | none => rfl
        | some ds =>
          rw [horig] at hflag
          have hde : ds.erase d = ∅ := by
            have hdec : decide (ds.erase d = ∅) = true := hflag
            exact of_decide_eq_true hdec
          have hr : remT d (some ds) =
              if ds.erase d = ∅ then none else some (ds.erase d) := rfl
          rw [hr, if_pos hde]
      · exact Or.inl ⟨hmem, hc⟩
  · rw [iwl, htokold]

theorem getD_replicate_any {α : Type} (n j : ℕ) (a : α) :
    (List.replicate n a).getD j a = a := by
  by_cases h : j < n
  · exact getD_replicate n j a a h
  · refine getD_of_get?_none ?_
    rw [List.get?_eq_getElem?]
    refine List.getElem?_eq_none ?_
    rw [List.length_replicate]
    omega

theorem removeDoc_eq_none (s : IndexM) (d : ℕ)
    (hd : s.docs.get? d = none) : removeDoc s d = s := by
  rw [removeDoc.eq_def, hd]

theorem removeDoc_eq_some (s : IndexM) (d : ℕ) (doc : List (List Word))
    (hd : s.docs.get? d = some doc) :
    removeDoc s d =
      { s with
        docs := s.docs.set d [],
        tables :=
          (removeWordsDoc s.tables s.intern (dedupSort doc.flatten) d).1,
        intern :=
          (removeWordsDoc s.tables s.intern (dedupSort doc.flatten) d).2 } := by
  rw [removeDoc.eq_def, hd]

theorem insertDocAttribute_none_nil (s : IndexM) (d ai : ℕ)
    (attrs : List (String × AttrRec)) (a : String × AttrRec)
    (ha : attrs.get? ai = some a) (hd : s.docs.get? d = none) :
    insertDocAttribute s d ai [] attrs = s := by
  rw [insertDocAttribute.eq_def, ha, hd]
  rfl

theorem insertDocAttribute_some_doc (s : IndexM) (d ai : ℕ)
    (tokens : List Word) (attrs : List (String × AttrRec))
    (a : String × AttrRec) (doc : List (List Word))
    (ha : attrs.get? ai = some a) (hd : s.docs.get? d = some doc) :
    insertDocAttribute s d ai tokens attrs =
      updateDocAttr
        { s with
          tables := (insertDocWordList s.tables s.intern
            (selIdxs a.2.culture s.tables.length) tokens s.direction d).1,
          intern := (insertDocWordList s.tables s.intern
            (selIdxs a.2.culture s.tables.length) tokens s.direction d).2.1 }
        d ai
        (insertDocWordList s.tables s.intern
          (selIdxs a.2.culture s.tables.length) tokens s.direction d).2.2 := by
  rw [insertDocAttribute.eq_def, ha, hd]

theorem updateDocAttr_nil (s : IndexM) (d ai : ℕ)
    (hdoc : s.docs.getD d [] = []) : updateDocAttr s d ai [] = s := by
  rw [updateDocAttr, if_neg]
  intro h
  rcases h with h | h
  · rw [hdoc] at h
    exact absurd h (Nat.not_lt_zero ai)
  · exact h rfl

theorem updateDocAttr_restore (s : IndexM) (d ai : ℕ) (wl : List Word)
    (hdoc : s.docs.getD d [] = []) (hwl : wl ≠ []) :
    updateDocAttr s d ai wl =
      { s with
        docs := s.docs.set d ((List.replicate (ai + 1) []).set ai wl) } := by
  rw [updateDocAttr, if_pos (Or.inr hwl), hdoc]
  have h₁ : ensureSize ([] : List (List Word)) ai [] =
      List.replicate (ai + 1) [] := rfl
  have h₂ : (List.replicate (ai + 1) ([] : List Word)).getD ai [] = [] :=
    getD_replicate _ _ _ _ (Nat.lt_succ_self ai)
  have h₃ : dedupSort ([] : List Word) = [] := rfl
  have h₄ : removeWordsDoc s.tables s.intern [] d = (s.tables, s.intern) := rfl
  simp only [h₁, h₂, h₃, List.filter_nil, h₄]

/-- C4: `remove_doc` followed by `insert_doc_attribute` with the same token
sequence restores the word tables, the interner, and every document's
attribute word lists, provided attribute `ai` was the only attribute of
document `d` holding words (`remove_doc` clears every attribute of the
document while `insert_doc_attribute` repopulates only `ai`) and the state
was consistent: tables sorted with no empty rows, interner sorted, the
document's words interned, indexed with bit `d` exactly in the attribute's
selected tables, and at least one table selected when the word list is
non-empty. -/
theorem C4_amended (S : IndexM) (attrs : List (String × AttrRec))
    (d ai : ℕ) (tokens : List Word) (a : String × AttrRec)
    (ha : attrs.get? ai = some a)
    (h1 : ∀ t ∈ S.tables, sortedT t = true)
    (h2 : ∀ t ∈ S.tables, ∀ r ∈ t, r.docs ≠ ∅)
    (h3 : sortedW S.intern = true)
    (h5 : getDocAttributeWords S d ai = tokens.map (dirWord S.direction))
    (h6 : ∀ j, j ≠ ai → getDocAttributeWords S d j = [])
    (h7 : ∀ w ∈ getDocAttributeWords S d ai, w ∈ S.intern)
    (h8 : ∀ w ∈ getDocAttributeWords S d ai,
      ∀ j ∈ selIdxs a.2.culture S.tables.length,
        ∃ ds, rowLookup (S.tables.getD j []) w = some ds ∧ d ∈ ds)
    (h9 : ∀ w ∈ getDocAttributeWords S d ai, ∀ j, j < S.tables.length →
      j ∉ selIdxs a.2.culture S.tables.length →
      ∀ ds, rowLookup (S.tables.getD j []) w = some ds → d ∉ ds)
    (h10 : getDocAttributeWords S d ai ≠ [] →
      selIdxs a.2.culture S.tables.length ≠ []) :
    (insertDocAttribute (removeDoc S d) d ai tokens attrs).tables =
      S.tables ∧
    (insertDocAttribute (removeDoc S d) d ai tokens attrs).intern =
      S.intern ∧
    ∀ d' j, getDocAttributeWords
      (insertDocAttribute (removeDoc S d) d ai tokens attrs) d' j =
      getDocAttributeWords S d' j := by
  cases hd : S.docs.get? d with
  | none =>
    have hgd : S.docs.getD d [] = [] := getD_of_get?_none hd
    have hold0 : getDocAttributeWords S d ai = [] := by
      rw [getDocAttributeWords, hgd]
      rfl
    have htok : tokens = [] := by
      cases tokens with
      | nil => rfl
      | cons t ts =>
        rw [hold0] at h5
        simp at h5
    subst htok
    rw [removeDoc_eq_none S d hd,
      insertDocAttribute_none_nil S d ai attrs a ha hd]
    exact ⟨rfl, rfl, fun d' j => rfl⟩
  | some doc =>
    have hdl : d < S.docs.length := get?_some_lt hd
    have hgd : S.docs.getD d [] = doc := getD_of_get?_some hd
    have hdocj : ∀ j, j ≠ ai → doc.getD j [] = [] := by
      intro j hj
      have hh := h6 j hj
      rw [getDocAttributeWords, hgd] at hh
      exact hh
    have hflat : doc.flatten = getDocAttributeWords S d ai := by
      rw [flatten_single doc ai hdocj, getDocAttributeWords, hgd]
    have hold_eq : getDocAttributeWords S d ai = doc.getD ai [] := by
      rw [getDocAttributeWords, hgd]
    by_cases hnil : getDocAttributeWords S d ai = []
    · have htok : tokens = [] := by
        cases tokens with
        | nil => rfl
        | cons t ts =>
          rw [hnil] at h5
          simp at h5
      subst htok
      have hflat0 : doc.flatten = [] := by rw [hflat, hnil]
      have hrm : removeDoc S d = { S with docs := S.docs.set d [] } := by
        rw [removeDoc_eq_some S d doc hd, hflat0]
        rfl
      have hd2 : ({ S with docs := S.docs.set d [] } : IndexM).docs.get? d =
          some ([] : List (List Word)) := by
        show (S.docs.set d []).get? d = some []
        rw [List.get?_eq_getElem?, List.getElem?_set_self hdl]
      have hins : insertDocAttribute { S with docs := S.docs.set d [] } d ai
          [] attrs = { S with docs := S.docs.set d [] } := by
        rw [insertDocAttribute_some_doc _ d ai [] attrs a [] ha hd2]
        show updateDocAttr { S with docs := S.docs.set d [] } d ai [] =
          { S with docs := S.docs.set d [] }
        exact updateDocAttr_nil _ d ai (getD_set_eq _ _ _ _ hdl)
      rw [hrm, hins]
      refine ⟨rfl, rfl, fun d' j => ?_⟩
      rw [getDocAttributeWords, getDocAttributeWords]
      show ((S.docs.set d []).getD d' []).getD j [] =
        (S.docs.getD d' []).getD j []
      by_cases hdd : d' = d
      · subst hdd
        rw [getD_set_eq _ _ _ _ hdl, hgd, List.getD_nil]
        by_cases hj : j = ai
        · subst hj
          rw [← hold_eq, hnil]
        · rw [hdocj j hj]
      · rw [getD_set_ne _ _ _ _ _ (fun h => hdd h.symm)]
    · rcases removeWordsDoc_spec (dedupSort (getDocAttributeWords S d ai))
        S.tables S.intern d h1 (sorted_dedupSort _) h3 with ⟨rlen, -, -, -⟩
      cases hsel : selIdxs a.2.culture S.tables.length with
      | nil => exact absurd hsel (h10 hnil)
      | cons j₀ srest =>
        have hdist : List.Pairwise (· ≠ ·) (j₀ :: srest) :=
          hsel ▸ selIdxs_distinct a.2.culture S.tables.length
        have hrange : ∀ j ∈ j₀ :: srest, j < S.tables.length := fun j hj =>
          selIdxs_lt a.2.culture S.tables.length j (hsel.symm ▸ hj)
        rcases phase_roundTrip S.tables S.intern (getDocAttributeWords S d ai)
          tokens S.direction d j₀ srest hdist hrange h1 h2 h3 h5 h7
          (by rw [hsel] at h8; exact h8) (by rw [hsel] at h9; exact h9) with
          ⟨hT, hI, hW⟩
        have hrm : removeDoc S d =
            { S with
              docs := S.docs.set d [],
              tables := (removeWordsDoc S.tables S.intern
                (dedupSort (getDocAttributeWords S d ai)) d).1,
              intern := (removeWordsDoc S.tables S.intern
                (dedupSort (getDocAttributeWords S d ai)) d).2 } := by
          rw [removeDoc_eq_some S d doc hd, hflat]
        have hd2' : (removeDoc S d).docs.get? d =
            some ([] : List (List Word)) := by
          rw [hrm]
          show (S.docs.set d []).get? d = some []
          rw [List.get?_eq_getElem?, List.getElem?_set_self hdl]
        have hins : insertDocAttribute (removeDoc S d) d ai tokens attrs =
            { S with
              docs :=
                (S.docs.set d []).set d
                  ((List.replicate (ai + 1) []).set ai
                    (getDocAttributeWords S d ai)) } := by
          rw [insertDocAttribute_some_doc (removeDoc S d) d ai tokens attrs
            a [] ha hd2', hrm]
          dsimp only
          rw [rlen, hsel, hT, hI, hW]
          exact updateDocAttr_restore
            { direction := S.direction, docs := S.docs.set d [],
              tables := S.tables, intern := S.intern } d ai
            (getDocAttributeWords S d ai)
            (getD_set_eq _ _ _ _ hdl) hnil
        rw [hins]
        refine ⟨rfl, rfl, fun d' j => ?_⟩
        rw [getDocAttributeWords, getDocAttributeWords]
        show (((S.docs.set d []).set d
            ((List.replicate (ai + 1) []).set ai
              (getDocAttributeWords S d ai))).getD d' []).getD j [] =
          (S.docs.getD d' []).getD j []
        rw [List.set_set]
        by_cases hdd : d' = d
        · subst hdd
          rw [getD_set_eq _ _ _ _ hdl, hgd]
          by_cases hj : j = ai
          · subst hj
            rw [getD_set_eq _ _ _ _
              (by rw [List.length_replicate]; exact Nat.lt_succ_self j),
              hold_eq]
          · rw [getD_set_ne _ _ _ _ _ (fun h => hj h.symm),
              getD_replicate_any, hdocj j hj]
        · rw [getD_set_ne _ _ _ _ _ (fun h => hdd h.symm)]

/-- C4: the claim's unqualified restoration fails — rebuilding attribute 0
of document 0 with its original text after `remove_doc` loses attribute 1's
word list: the doc record reads back empty where the original held "b". -/
theorem C4_counterexample :
    getDocAttributeWords
      (insertDocAttribute (removeDoc c4Two 0) 0 0 [['a']] c4TwoAttrs) 0 1 =
      [] ∧
    getDocAttributeWords c4Two 0 1 = [['b']] := by
  decide

/-- C4 witness: the amended round trip holds at a concrete one-attribute
index — tables, interner, and the document's word list are restored. -/
theorem C4_amended_witness :
    (insertDocAttribute (removeDoc c4One 0) 0 0 [['a']] c4OneAttrs).tables =
      c4One.tables ∧
    (insertDocAttribute (removeDoc c4One 0) 0 0 [['a']] c4OneAttrs).intern =
      c4One.intern ∧
    getDocAttributeWords
      (insertDocAttribute (removeDoc c4One 0) 0 0 [['a']] c4OneAttrs) 0 0 =
      getDocAttributeWords c4One 0 0 := by
  have h := C4_amended c4One c4OneAttrs 0 0 [['a']]
    ("x", ⟨none, Direction.forward, 0, 0⟩)
    (by rfl)
    (by decide)
    (by decide)
    (by decide)
    (by rfl)
    (by
      intro j hj
      cases j with
      | zero => exact absurd rfl hj
      | succ n => rfl)
    (by decide)
    (by
      intro w hw j hj
      have hlt : j < 1 := by
        have hh := selIdxs_lt _ _ j hj
        simpa [c4One] using hh
      have hj0 : j = 0 := by omega
      subst hj0
      have hw' : w = ['a'] := by
        have hwm : w ∈ [['a']] := hw
        simpa using hwm
      subst hw'
      exact ⟨{0}, by decide, by decide⟩)
    (by
      intro w hw j hjlt hjn
      have hlt : j < 1 := by simpa [c4One] using hjlt
      have hj0 : j = 0 := by omega
      subst hj0
      exact absurd (by decide) hjn)
    (by decide)
  exact ⟨h.1, h.2.1, h.2.2 0 0⟩
